import Mathlib

/-!
# Verification of the dynamic UAV design system's core coordination logic

Shallow embedding of the repository's dependency-graph manager
(`backend/services/dependency_manager.py`), saga execution engine
(`backend/services/agent_lifecycle_manager.py`) and iterative workflow
scheduler (`backend/langgraph/state.py`, `backend/agents/base_agent.py`,
`workflows/langgraph.py`), together with proofs of the spec's claims
about them.

Python dictionaries keyed by agent name are modelled as insertion-ordered
association lists (`List DependencyNode` with lookup by name); unbounded
recursive traversals are modelled with an explicit fuel parameter large
enough to cover every execution that the source can perform.
-/

namespace UavSystem

/-- `AgentStatus` enum from `backend/models/agent.py`. -/
inductive AgentStatus where
  | inactive
  | running
  | error
  | configuring
deriving DecidableEq, Repr

/-- A row of the `agents` table, restricted to the fields the dependency
manager reads (`name`, `id`, `dependencies`, `status`).  The database has a
uniqueness constraint on `name`. -/
structure AgentRec where
  name : String
  id : Int
  dependencies : List String
  status : AgentStatus
deriving DecidableEq, Repr

/-- `DependencyNode` dataclass from `backend/services/dependency_manager.py`. -/
structure DependencyNode where
  name : String
  id : Int
  dependencies : List String
  dependents : List String
deriving DecidableEq, Repr

/-- Lookup in the name-keyed dictionary of nodes (`nodes.get(name)` /
`name in nodes`). -/
def findNode (nodes : List DependencyNode) (name : String) : Option DependencyNode :=
  nodes.find? (fun n => n.name = name)

/-- Names of the nodes (`nodes.keys()`). -/
def nodeNames (nodes : List DependencyNode) : List String :=
  nodes.map (·.name)

/-- One dependents-list update: `nodes[dep].dependents.append(target)` guarded
by `if dep in nodes` (updating the entry named `dep` is a no-op when no such
entry exists, which is exactly the guard's effect). -/
def appendDependent (nodes : List DependencyNode) (dep target : String) :
    List DependencyNode :=
  nodes.map (fun m =>
    if m.name = dep then { m with dependents := m.dependents ++ [target] } else m)

/-- The reverse-edge population loop shared by `get_dependency_graph` and
`update_agent_dependencies`: reset every `dependents` list to empty, then for
each node (in order) and each of its dependencies, append the node's name to
that dependency's `dependents` list. -/
def populateDependents (nodes : List DependencyNode) : List DependencyNode :=
  nodes.foldl
    (fun acc n => n.dependencies.foldl (fun acc2 dep => appendDependent acc2 dep n.name) acc)
    (nodes.map (fun n => { n with dependents := [] }))

/-- `DependencyManager.get_dependency_graph`: filter the snapshot to agents
with status INACTIVE or RUNNING, build one node per agent keeping only
dependency references that resolve inside the snapshot, then populate the
reverse edges. -/
def getDependencyGraph (snapshot : List AgentRec) : List DependencyNode :=
  let agents := snapshot.filter (fun a => a.status = .inactive ∨ a.status = .running)
  let agentNames := agents.map (·.name)
  let nodes : List DependencyNode := agents.map (fun a =>
    { name := a.name
      id := a.id
      dependencies := a.dependencies.filter (fun dep => dep ∈ agentNames)
      dependents := [] })
  populateDependents nodes

/-- `DependencyManager.find_orphaned_dependencies`: report every dependency
reference that has no matching node. -/
def findOrphanedDependencies (nodes : List DependencyNode) : List String :=
  let agentNames := nodeNames nodes
  nodes.foldl
    (fun acc node =>
      acc ++ (node.dependencies.filter (fun dep => ¬ dep ∈ agentNames)).map
        (fun dep => node.name ++ " depends on non-existent agent: " ++ dep))
    []

/-- Mutable state of `detect_circular_dependencies`: the cross-start `visited`
set, the current DFS `path` stack and the accumulated list of cycles. -/
structure DfsState where
  visited : List String
  path : List String
  cycles : List (List String)
deriving DecidableEq, Repr

/-- The inner `dfs` of `DependencyManager.detect_circular_dependencies`,
with an explicit fuel parameter standing in for the unbounded Python
recursion (each recursion level in the source adds a fresh name to
`visited`, so a fuel larger than the number of names occurring in the
graph makes the two coincide; see `detectFuel`).

If the current name is already on the path, record the sub-path from its
first occurrence (inclusive) plus the name itself as a cycle; if it was
already visited, do nothing; otherwise mark it visited, push it on the
path, recurse into its dependencies (when it has a node) and pop it. -/
def dfsDetect (nodes : List DependencyNode) : Nat → String → DfsState → DfsState
  | 0, _, s => s
  | fuel + 1, n, s =>
    if n ∈ s.path then
      { s with cycles := s.cycles ++ [s.path.drop (s.path.indexOf n) ++ [n]] }
    else if n ∈ s.visited then
      s
    else
      let s1 : DfsState := { s with visited := s.visited ++ [n], path := s.path ++ [n] }
      let s2 :=
        match findNode nodes n with
        | some nd => nd.dependencies.foldl (fun t d => dfsDetect nodes fuel d t) s1
        | none => s1
      { s2 with path := s2.path.dropLast }

/-- Every name the DFS can ever be started on: the node names plus every
name occurring in some dependency list. -/
def nameUniverse (nodes : List DependencyNode) : List String :=
  nodeNames nodes ++ nodes.foldl (fun acc n => acc ++ n.dependencies) []

/-- Fuel sufficient for `dfsDetect` to reproduce the unbounded source
recursion: one more than the number of (not necessarily distinct) names in
the graph. -/
def detectFuel (nodes : List DependencyNode) : Nat :=
  (nameUniverse nodes).length + 1

/-- `DependencyManager.detect_circular_dependencies`: run the path-tracking
DFS from every node, sharing `visited` and the cycle accumulator across
starts. -/
def detectCircularDependencies (nodes : List DependencyNode) : List (List String) :=
  ((nodeNames nodes).foldl (fun s n => dfsDetect nodes (detectFuel nodes) n s)
    ⟨[], [], []⟩).cycles

/-- `DependencyManager._calculate_dependency_chain_length`, fuel-indexed.
A revisited name contributes 0; a name with no node or no dependencies
contributes 1; otherwise one more than the maximum over its dependencies,
each explored with `visited` extended by the current name (the source
passes `visited.copy()` to every child, so the siblings share exactly
`visited ∪ \x7bagent\x7d`). -/
def calculateDependencyChainLength (nodes : List DependencyNode) :
    Nat → List String → String → Nat
  | 0, _, _ => 0
  | fuel + 1, visited, agent =>
    if agent ∈ visited then 0
    else
      match findNode nodes agent with
      | none => 1
      | some node =>
        if node.dependencies.isEmpty then 1
        else
          (node.dependencies.foldl
            (fun m dep =>
              max m (calculateDependencyChainLength nodes fuel (visited ++ [agent]) dep))
            0) + 1

/-- `DeletionPlan` dataclass from `backend/services/dependency_manager.py`. -/
structure DeletionPlan where
  target_agent : String
  can_delete_safely : Bool
  dependent_agents : List String
  cascade_deletion_required : Bool
  deletion_order : List String
  warnings : List String
deriving DecidableEq, Repr

/-- The worklist in `_calculate_cascade_deletion_order` collecting every agent
transitively dependent on the target: pop the last element of `to_process`,
skip it if already collected, otherwise collect it and push its dependents.
The source's `while` loop terminates because each name is collected at most
once; the fuel covers that bound (see `affectedFuel`). -/
def computeAffected (nodes : List DependencyNode) :
    Nat → List String → List String → List String
  | 0, _, affected => affected
  | fuel + 1, toProcess, affected =>
    match toProcess.getLast? with
    | none => affected
    | some current =>
      let tp := toProcess.dropLast
      if current ∈ affected then computeAffected nodes fuel tp affected
      else
        match findNode nodes current with
        | some nd => computeAffected nodes fuel (tp ++ nd.dependents) (affected ++ [current])
        | none => computeAffected nodes fuel tp (affected ++ [current])

/-- Fuel for `computeAffected`: the worklist processes at most one initial
element plus, for each collected name with a node, that node's dependents. -/
def affectedFuel (nodes : List DependencyNode) : Nat :=
  nodes.length + (nodes.map (fun n => n.dependents.length)).sum + 2

/-- State of the recursive `add_to_order` helper: the deletion order being
built and the set of names already placed (the source keeps them in lockstep:
every append to `deletion_order` is paired with an add to `processed`). -/
structure OrderState where
  order : List String
  processed : List String
deriving DecidableEq, Repr

/-- The recursive `add_to_order` helper of `_calculate_cascade_deletion_order`:
return immediately if the agent is already placed or not affected; otherwise
first place (recursively) every affected dependent, then append the agent
itself.  Fuel stands in for the unbounded source recursion; on acyclic graphs
a fuel exceeding the length of the longest dependent chain reproduces it
exactly (proved below). -/
def addToOrder (nodes : List DependencyNode) (affected : List String) :
    Nat → String → OrderState → OrderState
  | 0, _, s => s
  | fuel + 1, agent, s =>
    if agent ∈ s.processed ∨ ¬ agent ∈ affected then s
    else
      let s1 :=
        match findNode nodes agent with
        | some nd =>
          nd.dependents.foldl
            (fun t dep => if dep ∈ affected then addToOrder nodes affected fuel dep t else t) s
        | none => s
      if agent ∈ s1.processed then s1
      else { order := s1.order ++ [agent], processed := s1.processed ++ [agent] }

/-- `DependencyManager._calculate_cascade_deletion_order`: collect the affected
set, then run `add_to_order` over it. -/
def calculateCascadeDeletionOrder (nodes : List DependencyNode) (agentName : String) :
    List String :=
  let affected := computeAffected nodes (affectedFuel nodes) [agentName] []
  (affected.foldl (fun s a => addToOrder nodes affected (nodes.length + 1) a s)
    ⟨[], []⟩).order

/-- `DependencyManager.analyze_deletion_impact` (the graph is passed explicitly
where the source re-reads it from the database). -/
def analyzeDeletionImpact (nodes : List DependencyNode) (agentName : String) :
    DeletionPlan :=
  match findNode nodes agentName with
  | none =>
    { target_agent := agentName
      can_delete_safely := false
      dependent_agents := []
      cascade_deletion_required := false
      deletion_order := []
      warnings := ["Agent " ++ agentName ++ " not found"] }
  | some targetNode =>
    let dependentAgents := targetNode.dependents
    if dependentAgents.isEmpty then
      { target_agent := agentName
        can_delete_safely := true
        dependent_agents := []
        cascade_deletion_required := false
        deletion_order := [agentName]
        warnings := [] }
    else
      let deletionOrder := calculateCascadeDeletionOrder nodes agentName
      { target_agent := agentName
        can_delete_safely := false
        dependent_agents := dependentAgents
        cascade_deletion_required := true
        deletion_order := deletionOrder
        warnings :=
          if 5 < deletionOrder.length then
            ["Cascade deletion would affect " ++ toString deletionOrder.length ++ " agents"]
          else [] }

/-- Replace the dependency list of the entry named `agentName`
(`test_nodes[agent_name].dependencies = new_dependencies`). -/
def setNodeDependencies (nodes : List DependencyNode) (agentName : String)
    (newDeps : List String) : List DependencyNode :=
  nodes.map (fun n => if n.name = agentName then { n with dependencies := newDeps } else n)

/-- Python's `str.lower()` restricted to ASCII letters (agent names are
ASCII identifiers), written so that it reduces inside the kernel. -/
def pyLower (s : String) : String :=
  ⟨s.data.map (fun c => if 'A' ≤ c ∧ c ≤ 'Z' then Char.ofNat (c.toNat + 32) else c)⟩

/-- Outcome of `DependencyManager.update_agent_dependencies`, one constructor
per `return` site that the claims distinguish. -/
inductive UpdateResult where
  | coordinatorProtected
  | notFound
  | circular (cycles : List (List String))
  | success (updated : List String)
deriving DecidableEq, Repr

/-- `DependencyManager.update_agent_dependencies`: coordinator protection,
existence check, speculative cycle check on the graph with the agent's
dependency list replaced and all reverse edges recomputed, then (only on
success) the database write.  Returns the structured result together with
the resulting database snapshot. -/
def updateAgentDependencies (snapshot : List AgentRec) (agentName : String)
    (newDeps : List String) : UpdateResult × List AgentRec :=
  if pyLower agentName = "coordinator" ∧ ¬ newDeps.isEmpty then
    (.coordinatorProtected, snapshot)
  else
    let nodes := getDependencyGraph snapshot
    match findNode nodes agentName with
    | none => (.notFound, snapshot)
    | some _ =>
      let testNodes := populateDependents (setNodeDependencies nodes agentName newDeps)
      let circularDeps := detectCircularDependencies testNodes
      if ¬ circularDeps.isEmpty then
        (.circular circularDeps, snapshot)
      else if ¬ (snapshot.map (·.name)).contains agentName then
        (.notFound, snapshot)
      else
        (.success newDeps,
          snapshot.map (fun a =>
            if a.name = agentName then { a with dependencies := newDeps } else a))

/-- `OperationStep` dataclass from
`backend/services/agent_lifecycle_manager.py`.  Parameter dictionaries are
modelled as string key/value pairs. -/
structure OperationStep where
  name : String
  service : String
  operation : String
  parameters : List (String × String)
  rollback_operation : Option String := none
  rollback_parameters : Option (List (String × String)) := none
deriving DecidableEq, Repr

/-- `AtomicOperation` dataclass (static part; the mutable bookkeeping fields
live in `ExecResult`). -/
structure AtomicOperation where
  operation_id : String
  operation_type : String
  steps : List OperationStep
deriving DecidableEq, Repr

/-- The behaviour of `_execute_step` is external to the saga engine (it
dispatches to collaborating services); it is modelled as an oracle mapping a
step to either a result or a raised error message. -/
def StepOracle : Type := OperationStep → Except String String

/-- Observable actions of `_execute_atomic_operation`: a forward execution
attempt of the step at an index, or a rollback invocation for the completed
step at an index, carrying the freshly constructed rollback step. -/
inductive OpEvent where
  | exec (i : Nat) (step : OperationStep)
  | rollback (i : Nat) (step : OperationStep)
deriving DecidableEq, Repr

/-- The rollback step constructed in `_rollback_operation`:
`name="rollback_"+step.name`, same service, the step's pre-declared
compensating operation and parameters (`rollback_parameters or \x7b\x7d`). -/
def mkRollbackStep (st : OperationStep) (rop : String) : OperationStep :=
  { name := "rollback_" ++ st.name
    service := st.service
    operation := rop
    parameters := st.rollback_parameters.getD [] }

/-- The forward loop of `_execute_atomic_operation`, walking the steps from
index `i`: on success record the index as completed and continue; on the
first failure stop, reporting the failing index and error.  Returns the
completed indices, the execution-attempt events, and the failure (if any). -/
def runForward (oracle : StepOracle) :
    List OperationStep → Nat → List Nat × List OpEvent × Option (Nat × String)
  | [], _ => ([], [], none)
  | st :: rest, i =>
    match oracle st with
    | .ok _ =>
      let (c, ev, f) := runForward oracle rest (i + 1)
      (i :: c, .exec i st :: ev, f)
    | .error e => ([], [.exec i st], some (i, e))

/-- `_rollback_operation`'s sweep over `reversed(completed_steps)`: for each
completed index whose step pre-declares a compensating operation, invoke that
compensation (the invocation's outcome is swallowed by the source's
`try/except`, so the sweep continues regardless and the emitted invocation
list does not depend on the oracle); steps without a declared compensation
are skipped. -/
def rollbackSweep (oracle : StepOracle) (steps : List OperationStep) :
    List Nat → List OpEvent
  | [] => []
  | i :: rest =>
    match steps[i]? with
    | none => rollbackSweep oracle steps rest
    | some st =>
      match st.rollback_operation with
      | none => rollbackSweep oracle steps rest
      | some rop => .rollback i (mkRollbackStep st rop) :: rollbackSweep oracle steps rest

/-- Result of `_execute_atomic_operation` together with the trace of step
executions and rollback invocations. -/
structure ExecResult where
  success : Bool
  failedStep : Option Nat
  errorMessage : Option String
  completedSteps : List Nat
  rollbackCompleted : Bool
  events : List OpEvent
deriving DecidableEq, Repr

/-- `AgentLifecycleManager._execute_atomic_operation`: run the steps in list
order; on the first failure roll back every completed step in reverse
completion order and report failure; if every step succeeds report
success with no rollback. -/
def executeAtomicOperation (oracle : StepOracle) (op : AtomicOperation) : ExecResult :=
  match runForward oracle op.steps 0 with
  | (completed, ev, some (k, e)) =>
    { success := false
      failedStep := some k
      errorMessage := some ("Step " ++ toString (k + 1) ++ " failed: " ++ e)
      completedSteps := completed
      rollbackCompleted := true
      events := ev ++ rollbackSweep oracle op.steps completed.reverse }
  | (completed, ev, none) =>
    { success := true
      failedStep := none
      errorMessage := none
      completedSteps := completed
      rollbackCompleted := false
      events := ev }

/-- The slice of `DynamicGlobalState` (`backend/langgraph/state.py`) that the
stability check and the dependency-readiness check read.  For each agent,
`agent_outputs` keeps the iterations at which the agent recorded an output
(the payloads themselves are irrelevant to the checks). -/
structure GState where
  agent_outputs : List (String × List Int)
  current_iteration : Int
  stability_threshold : Int
  last_update_iteration : List (String × Int)
deriving DecidableEq, Repr

/-- `DynamicGlobalState.check_stability`: false while the current iteration
is below the stability threshold; otherwise false iff some tracked agent
updated within the threshold window (`current - last < threshold`). -/
def checkStability (s : GState) : Bool :=
  if s.current_iteration < s.stability_threshold then false
  else s.last_update_iteration.all
    (fun p => ¬ (s.current_iteration - p.2 < s.stability_threshold))

/-- The slice of `BaseAgent` (`backend/agents/base_agent.py`) that the
scheduler's readiness check uses. -/
structure BAgent where
  name : String
  dependencies : List String
deriving DecidableEq, Repr

/-- Dictionary lookup `state.agent_outputs[dep]`. -/
def lookupOutputs (outputs : List (String × List Int)) (dep : String) :
    Option (List Int) :=
  (outputs.find? (fun p => p.1 = dep)).map (·.2)

/-- `BaseAgent.check_dependencies_ready`: an agent with no dependencies is
always ready; otherwise every dependency must be present in `agent_outputs`,
non-empty, and have some output at an iteration `≤ current_iteration`. -/
def checkDependenciesReady (agent : BAgent) (state : GState) : Bool :=
  if agent.dependencies.isEmpty then true
  else agent.dependencies.all (fun dep =>
    match lookupOutputs state.agent_outputs dep with
    | none => false
    | some depOutputs =>
      if depOutputs.isEmpty then false
      else depOutputs.any (fun it => it ≤ state.current_iteration))

/-- The ready-agent selection of `dynamic_aggregator`
(`workflows/langgraph.py`): agents not yet executed this iteration whose
dependencies are ready; exactly these are dispatched as tasks. -/
def readyAgents (agents executed : List BAgent) (state : GState) : List BAgent :=
  agents.filter (fun a => ¬ a ∈ executed ∧ checkDependenciesReady a state)

/-! ## Helper lemmas about the graph builder -/

/-- The part of a graph that reverse-edge population never touches:
names, ids and dependency lists, in order. -/
def depsSkeleton (nodes : List DependencyNode) : List (String × Int × List String) :=
  nodes.map (fun n => (n.name, n.id, n.dependencies))

theorem depsSkeleton_appendDependent (nodes : List DependencyNode) (dep tgt : String) :
    depsSkeleton (appendDependent nodes dep tgt) = depsSkeleton nodes := by
  simp only [depsSkeleton, appendDependent, List.map_map]
  refine List.map_congr_left (fun n _ => ?_)
  by_cases h : n.name = dep <;> simp [h]

/-- Invariants are preserved along a left fold. -/
theorem foldl_invariant {α β : Type _} (P : β → Prop) (f : β → α → β) :
    ∀ (l : List α) (b : β), P b → (∀ x a, a ∈ l → P x → P (f x a)) →
      P (l.foldl f b) := by
  intro l
  induction l with
  | nil => intro b hb _; exact hb
  | cons a l ih =>
    intro b hb hstep
    exact ih (f b a) (hstep b a (List.mem_cons_self a l) hb)
      (fun x c hc hx => hstep x c (List.mem_cons_of_mem a hc) hx)

theorem depsSkeleton_populateDependents (nodes : List DependencyNode) :
    depsSkeleton (populateDependents nodes) = depsSkeleton nodes := by
  unfold populateDependents
  have hbase : depsSkeleton (nodes.map (fun n => { n with dependents := [] })) =
      depsSkeleton nodes := by
    simp [depsSkeleton, List.map_map]
  refine foldl_invariant (fun x => depsSkeleton x = depsSkeleton nodes) _ nodes _ hbase
    (fun acc n _ hacc => ?_)
  refine foldl_invariant (fun x => depsSkeleton x = depsSkeleton nodes) _ n.dependencies _
    hacc (fun acc2 dep _ hacc2 => ?_)
  show depsSkeleton (appendDependent acc2 dep n.name) = depsSkeleton nodes
  rw [depsSkeleton_appendDependent]
  exact hacc2

theorem nodeNames_populateDependents (nodes : List DependencyNode) :
    nodeNames (populateDependents nodes) = nodeNames nodes := by
  have h := depsSkeleton_populateDependents nodes
  have h1 : (depsSkeleton (populateDependents nodes)).map (·.1) =
      (depsSkeleton nodes).map (·.1) := by rw [h]
  simpa [depsSkeleton, nodeNames, List.map_map] using h1

theorem mem_populateDependents_skeleton {nodes : List DependencyNode}
    {n : DependencyNode} (hn : n ∈ populateDependents nodes) :
    ∃ m ∈ nodes, m.name = n.name ∧ m.dependencies = n.dependencies := by
  have h := depsSkeleton_populateDependents nodes
  have hmem : (n.name, n.id, n.dependencies) ∈ depsSkeleton nodes := by
    rw [← h]
    exact List.mem_map.mpr ⟨n, hn, rfl⟩
  rcases List.mem_map.mp hmem with ⟨m, hm, heq⟩
  obtain ⟨h1, _, h3⟩ : m.name = n.name ∧ m.id = n.id ∧ m.dependencies = n.dependencies := by
    simpa using heq
  exact ⟨m, hm, h1, h3⟩

/-- Every dependency reference inside a freshly built graph resolves to a
node of that graph. -/
theorem getDependencyGraph_deps_closed (snapshot : List AgentRec) :
    ∀ n ∈ getDependencyGraph snapshot, ∀ d ∈ n.dependencies,
      d ∈ nodeNames (getDependencyGraph snapshot) := by
  intro n hn d hd
  unfold getDependencyGraph at hn ⊢
  set agents := snapshot.filter (fun a => a.status = .inactive ∨ a.status = .running)
    with hagents
  set base : List DependencyNode := agents.map (fun a =>
    { name := a.name
      id := a.id
      dependencies := a.dependencies.filter (fun dep => dep ∈ agents.map (·.name))
      dependents := [] }) with hbase
  rcases mem_populateDependents_skeleton hn with ⟨m, hm, _, hdeps⟩
  rw [nodeNames_populateDependents]
  have hnames : nodeNames base = agents.map (·.name) := by
    simp [nodeNames, hbase, List.map_map]
  rw [hnames]
  rcases List.mem_map.mp hm with ⟨a, _, ha⟩
  rw [← hdeps] at hd
  rw [← ha] at hd
  simp only at hd
  simpa using (List.mem_filter.mp hd).2

theorem findNode_some {nodes : List DependencyNode} {name : String}
    {n : DependencyNode} (h : findNode nodes name = some n) :
    n ∈ nodes ∧ n.name = name := by
  refine ⟨List.mem_of_find?_eq_some h, ?_⟩
  have := List.find?_some h
  simpa using this

theorem name_unique {nodes : List DependencyNode}
    (h : (nodeNames nodes).Nodup) {m n : DependencyNode}
    (hm : m ∈ nodes) (hn : n ∈ nodes) (heq : m.name = n.name) : m = n :=
  List.inj_on_of_nodup_map h hm hn heq

/-- C10: a freshly built dependency graph never contains an orphaned
dependency reference: `get_dependency_graph` keeps only dependency names that
resolve inside the eligible snapshot, so `find_orphaned_dependencies` on its
output is always the empty list. -/
theorem builder_graph_has_no_orphans (snapshot : List AgentRec)
    (_hnodup : (snapshot.map (·.name)).Nodup) :
    findOrphanedDependencies (getDependencyGraph snapshot) = [] := by
  have hclosed := getDependencyGraph_deps_closed snapshot
  unfold findOrphanedDependencies
  refine foldl_invariant (fun x => x = []) _ _ _ rfl (fun acc node hnode hacc => ?_)
  have hfil : node.dependencies.filter
      (fun dep => ¬ dep ∈ nodeNames (getDependencyGraph snapshot)) = [] := by
    rw [List.filter_eq_nil_iff]
    intro d hd
    simpa using hclosed node hnode d hd
  rw [hacc, hfil]
  simp

/-- Witness for C10 on a concrete snapshot (one ineligible agent, one
dangling dependency reference, which the builder drops). -/
theorem builder_graph_has_no_orphans_witness :
    findOrphanedDependencies (getDependencyGraph
      [⟨"M", 1, [], .inactive⟩, ⟨"A", 2, ["M"], .running⟩,
       ⟨"S", 3, ["M", "A", "ghost"], .inactive⟩, ⟨"X", 4, ["M"], .error⟩]) = [] :=
  builder_graph_has_no_orphans _ (by decide)

/-- The three-node sample graph of the spec's scenarios (`M` with no
dependencies, `A` depending on `M`, `S` depending on `M` and `A`), with the
reverse edges exactly as the builder computes them. -/
def sampleGraphMAS : List DependencyNode :=
  [⟨"M", 1, [], ["A", "S"]⟩, ⟨"A", 2, ["M"], ["S"]⟩, ⟨"S", 3, ["M", "A"], []⟩]

/-- C8: `analyze_deletion_impact` on an agent that exists in the graph and on
which no other agent depends (and that does not depend on itself — the data
model forbids self-loops) returns the trivial plan: deletable safely, with
the single-element deletion order `[name]`.  The `dependents` hypothesis ties
the stored reverse edges to real dependers, as the builder guarantees. -/
theorem zero_dependents_trivial_plan (nodes : List DependencyNode) (name : String)
    (node : DependencyNode) (hfind : findNode nodes name = some node)
    (hnodup : (nodeNames nodes).Nodup)
    (hwf1 : ∀ d ∈ node.dependents, ∃ m ∈ nodes, m.name = d ∧ name ∈ m.dependencies)
    (hnoother : ∀ m ∈ nodes, m.name ≠ name → ¬ name ∈ m.dependencies)
    (hnoself : ¬ name ∈ node.dependencies) :
    analyzeDeletionImpact nodes name =
      { target_agent := name
        can_delete_safely := true
        dependent_agents := []
        cascade_deletion_required := false
        deletion_order := [name]
        warnings := [] } := by
  obtain ⟨hmem, hname⟩ := findNode_some hfind
  have hdeps : node.dependents = [] := by
    rw [List.eq_nil_iff_forall_not_mem]
    intro d hd
    rcases hwf1 d hd with ⟨m, hm, _, hdep⟩
    by_cases hcase : m.name = name
    · have : m = node := name_unique hnodup hm hmem (by rw [hcase, hname])
      rw [this] at hdep
      exact hnoself hdep
    · exact hnoother m hm hcase hdep
  unfold analyzeDeletionImpact
  rw [hfind]
  simp [hdeps]

/-- Witness for C8: deleting `S` (which nothing depends on) in the sample
graph. -/
theorem zero_dependents_trivial_plan_witness :
    (analyzeDeletionImpact sampleGraphMAS "S").can_delete_safely = true ∧
    (analyzeDeletionImpact sampleGraphMAS "S").deletion_order = ["S"] := by
  have h := zero_dependents_trivial_plan sampleGraphMAS "S" ⟨"S", 3, ["M", "A"], []⟩
    (by decide) (by decide) (by decide) (by decide) (by decide)
  rw [h]
  exact ⟨rfl, rfl⟩

/-- Counterexample to C2 as stated: with `current_iteration = 3`,
`stability_threshold = 3` and one agent whose last materially-different
output was at iteration 0, the code declares stability although
`current - last = 3` is not *strictly more than* the threshold. -/
theorem check_stability_strict_window_cex :
    ¬ (checkStability ⟨[], 3, 3, [("a", 0)]⟩ = true ↔
        ((3 : Int) ≤ 3 ∧ ∀ p ∈ [(("a" : String), (0 : Int))], (3 : Int) < 3 - p.2)) := by
  decide

/-- C2 (amended): the stability check returns true exactly when the current
iteration is at least the configured stability threshold and every tracked
agent's last materially-different output is **at least** (not strictly more
than) `stability_threshold` iterations in the past. -/
theorem check_stability_iff (s : GState) :
    checkStability s = true ↔
      s.stability_threshold ≤ s.current_iteration ∧
      ∀ p ∈ s.last_update_iteration,
        s.stability_threshold ≤ s.current_iteration - p.2 := by
  unfold checkStability
  by_cases h : s.current_iteration < s.stability_threshold
  · simp only [if_pos h]
    constructor
    · intro hfalse; cases hfalse
    · rintro ⟨hle, -⟩; omega
  · simp only [if_neg h, List.all_eq_true]
    constructor
    · intro hall
      exact ⟨by omega, fun p hp => by have := hall p hp; simpa using this⟩
    · rintro ⟨-, hall⟩ p hp
      have := hall p hp
      simpa using this

/-- Witness for C2's amended equivalence at a concrete stable state. -/
theorem check_stability_iff_witness :
    checkStability ⟨[], 5, 3, [("a", 1)]⟩ = true :=
  (check_stability_iff ⟨[], 5, 3, [("a", 1)]⟩).mpr ⟨by decide, by decide⟩

/-- C5: the aggregator dispatches exactly the agents selected by
`readyAgents`, and any agent so selected has, for every declared dependency,
a recorded output at some iteration `≤` the current one; an agent with no
declared dependencies always passes the readiness check. -/
theorem dispatch_requires_dependency_outputs :
    (∀ (agents executed : List BAgent) (state : GState) (agent : BAgent),
      agent ∈ readyAgents agents executed state →
      ∀ dep ∈ agent.dependencies,
        ∃ its, lookupOutputs state.agent_outputs dep = some its ∧
          ∃ it ∈ its, it ≤ state.current_iteration) ∧
    (∀ (agent : BAgent) (state : GState), agent.dependencies = [] →
      checkDependenciesReady agent state = true) := by
  constructor
  · intro agents executed state agent hmem dep hdep
    have hready : checkDependenciesReady agent state = true := by
      have h2 := (List.mem_filter.mp hmem).2
      simp only [decide_eq_true_eq] at h2
      exact h2.2
    unfold checkDependenciesReady at hready
    have hne : agent.dependencies.isEmpty = false := by
      cases hempty : agent.dependencies.isEmpty
      · rfl
      · rw [List.isEmpty_iff] at hempty
        rw [hempty] at hdep
        cases hdep
    rw [if_neg (by simp [hne])] at hready
    have hall := (List.all_eq_true.mp hready) dep hdep
    cases hlook : lookupOutputs state.agent_outputs dep with
    | none => rw [hlook] at hall; cases hall
    | some its =>
      rw [hlook] at hall
      dsimp only at hall
      refine ⟨its, rfl, ?_⟩
      by_cases hits : its.isEmpty
      · rw [if_pos hits] at hall; cases hall
      · rw [if_neg hits] at hall
        rcases List.any_eq_true.mp hall with ⟨it, hit, hle⟩
        exact ⟨it, hit, by simpa using hle⟩
  · intro agent state hnil
    unfold checkDependenciesReady
    rw [if_pos (by simp [hnil])]

/-- Witness for C5 at a concrete state: `A` (depending on `M`) is selected
once `M` has output at iteration 0, and its dependency indeed has a
sufficiently early output; `M` itself has no dependencies and is always
ready. -/
theorem dispatch_requires_dependency_outputs_witness :
    (∃ its, lookupOutputs [("M", [0])] "M" = some its ∧ ∃ it ∈ its, it ≤ (0 : Int)) ∧
    checkDependenciesReady ⟨"M", []⟩ ⟨[("M", [0])], 0, 3, []⟩ = true := by
  constructor
  · exact dispatch_requires_dependency_outputs.1 [⟨"A", ["M"]⟩] [] ⟨[("M", [0])], 0, 3, []⟩
      ⟨"A", ["M"]⟩ (by decide) "M" (by decide)
  · exact dispatch_requires_dependency_outputs.2 ⟨"M", []⟩ ⟨[("M", [0])], 0, 3, []⟩ rfl

/-- Discriminator: did `update_agent_dependencies` fail with a circular
dependency report? -/
def UpdateResult.isCircular : UpdateResult → Bool
  | .circular _ => true
  | _ => false

/-- Snapshot with a coordinator and one agent depending on it. -/
def coordSnapshot : List AgentRec :=
  [⟨"coordinator", 1, [], .inactive⟩, ⟨"a", 2, ["coordinator"], .inactive⟩]

/-- Counterexample to C3 as stated: proposing dependencies for the
*coordinator* whose adoption would introduce a cycle is rejected by the
coordinator-protection guard before cycle validation ever runs, so the
failure does not report the circular dependencies (the live snapshot is
still unchanged). -/
theorem cyclic_update_rejected_cex :
    ¬ (detectCircularDependencies (populateDependents (setNodeDependencies
        (getDependencyGraph coordSnapshot) "coordinator" ["a"]))).isEmpty ∧
    (findNode (getDependencyGraph coordSnapshot) "coordinator").isSome ∧
    (updateAgentDependencies coordSnapshot "coordinator" ["a"]).1.isCircular = false ∧
    (updateAgentDependencies coordSnapshot "coordinator" ["a"]).2 = coordSnapshot := by
  decide

/-- C3 (amended): for a proposal not blocked by coordinator protection, if
the target agent exists in the live graph and adopting the proposed
dependency list would introduce a cycle (cycle detection on the
speculatively rebuilt graph reports at least one cycle), then
`update_agent_dependencies` fails with exactly those circular dependencies
and the stored snapshot — hence the target agent's stored dependency
list — is unchanged. -/
theorem cyclic_update_rejected (snapshot : List AgentRec) (agentName : String)
    (newDeps : List String) (node : DependencyNode)
    (hprot : ¬ (pyLower agentName = "coordinator" ∧ ¬ newDeps.isEmpty))
    (hfind : findNode (getDependencyGraph snapshot) agentName = some node)
    (hcyc : ¬ (detectCircularDependencies (populateDependents
      (setNodeDependencies (getDependencyGraph snapshot) agentName newDeps))).isEmpty) :
    updateAgentDependencies snapshot agentName newDeps =
      (.circular (detectCircularDependencies (populateDependents
        (setNodeDependencies (getDependencyGraph snapshot) agentName newDeps))),
       snapshot) := by
  unfold updateAgentDependencies
  rw [if_neg hprot]
  simp only [hfind, if_pos hcyc]

/-- Witness for C3's amended statement: proposing `A → [S]` in the M/A/S
snapshot (where `S` already depends on `A`) is rejected as circular and
leaves the snapshot untouched. -/
theorem cyclic_update_rejected_witness :
    updateAgentDependencies
      [⟨"M", 1, [], .inactive⟩, ⟨"A", 2, ["M"], .running⟩, ⟨"S", 3, ["M", "A"], .inactive⟩]
      "A" ["S"] =
      (.circular (detectCircularDependencies (populateDependents
        (setNodeDependencies (getDependencyGraph
          [⟨"M", 1, [], .inactive⟩, ⟨"A", 2, ["M"], .running⟩,
           ⟨"S", 3, ["M", "A"], .inactive⟩]) "A" ["S"]))),
       [⟨"M", 1, [], .inactive⟩, ⟨"A", 2, ["M"], .running⟩, ⟨"S", 3, ["M", "A"], .inactive⟩]) :=
  cyclic_update_rejected _ _ _ ⟨"A", 2, ["M"], ["S"]⟩ (by decide) (by decide) (by decide)

/-! ## Saga execution engine: behaviour on a failing step -/

theorem runForward_spec (oracle : StepOracle) (e : String) (stk : OperationStep) :
    ∀ (k : Nat) (steps : List OperationStep) (i0 : Nat),
      (steps.take k).all (fun st => (oracle st).isOk) = true →
      steps[k]? = some stk → oracle stk = .error e →
      runForward oracle steps i0 =
        ((List.range k).map (· + i0),
         ((steps.take (k + 1)).enumFrom i0).map (fun p => OpEvent.exec p.1 p.2),
         some (k + i0, e)) := by
  intro k
  induction k with
  | zero =>
    intro steps i0 _ hk hfail
    cases steps with
    | nil => cases hk
    | cons s0 rest =>
      have hs0 : s0 = stk := by simpa using hk
      subst hs0
      simp [runForward, hfail, List.enumFrom]
  | succ k ih =>
    intro steps i0 hall hk hfail
    cases steps with
    | nil => cases hk
    | cons s0 rest =>
      rw [List.take_succ_cons, List.all_cons, Bool.and_eq_true] at hall
      obtain ⟨hok, hrest⟩ := hall
      obtain ⟨r, hr⟩ : ∃ r, oracle s0 = .ok r := by
        cases horacle : oracle s0 with
        | ok r => exact ⟨r, rfl⟩
        | error err => rw [horacle] at hok; cases hok
      have hrec := ih rest (i0 + 1) hrest (by simpa using hk) hfail
      simp only [runForward, hr, hrec]
      simp only [Prod.mk.injEq]
      refine ⟨?_, ?_, ?_⟩
      · rw [List.range_succ_eq_map]
        simp only [List.map_cons, List.map_map, Nat.zero_add]
        refine congrArg (i0 :: ·) ?_
        exact List.map_congr_left (fun x _ => by simp [Function.comp]; omega)
      · rw [List.take_succ_cons]
        simp [List.enumFrom]
      · refine congrArg some (congrArg (·, e) ?_)
        omega

theorem rollbackSweep_spec (oracle : StepOracle) (steps : List OperationStep) :
    ∀ idxs : List Nat,
      rollbackSweep oracle steps idxs = idxs.filterMap (fun i =>
        steps[i]?.bind (fun st =>
          st.rollback_operation.map (fun rop => OpEvent.rollback i (mkRollbackStep st rop)))) := by
  intro idxs
  induction idxs with
  | nil => rfl
  | cons i rest ih =>
    rw [List.filterMap_cons]
    show (match steps[i]? with
      | none => rollbackSweep oracle steps rest
      | some st =>
        match st.rollback_operation with
        | none => rollbackSweep oracle steps rest
        | some rop => .rollback i (mkRollbackStep st rop) :: rollbackSweep oracle steps rest) = _
    cases hstep : steps[i]? with
    | none => simpa using ih
    | some st =>
      cases hrop : st.rollback_operation with
      | none => simpa [hrop] using ih
      | some rop => simpa [hrop] using congrArg (OpEvent.rollback i (mkRollbackStep st rop) :: ·) ih

/-- C1 (amended): when every step before index `k` succeeds and the step at
index `k` raises, the saga engine reports failure at `k` with exactly the
steps before `k` completed; the trace consists of the forward execution
attempts of steps `0..k` (so step `k` is attempted but never completed, and
steps after `k` are never attempted) followed by exactly one rollback
invocation for each completed step *that pre-declares a compensating
operation*, in strict reverse completion order, each invocation carrying the
step's pre-declared compensating operation and parameters.  Completed steps
without a declared compensating operation are skipped, and since the oracle
is arbitrary — in particular it may fail every rollback invocation — the
sweep is independent of the rollback outcomes. -/
theorem saga_failure_rolls_back_completed_steps (oracle : StepOracle)
    (op : AtomicOperation) (k : Nat) (stk : OperationStep) (e : String)
    (hsucc : (op.steps.take k).all (fun st => (oracle st).isOk) = true)
    (hkstep : op.steps[k]? = some stk)
    (hfail : oracle stk = .error e) :
    executeAtomicOperation oracle op =
      { success := false
        failedStep := some k
        errorMessage := some ("Step " ++ toString (k + 1) ++ " failed: " ++ e)
        completedSteps := List.range k
        rollbackCompleted := true
        events :=
          ((op.steps.take (k + 1)).enum).map (fun p => OpEvent.exec p.1 p.2) ++
          (List.range k).reverse.filterMap (fun i =>
            op.steps[i]?.bind (fun st =>
              st.rollback_operation.map (fun rop =>
                OpEvent.rollback i (mkRollbackStep st rop)))) } := by
  have hrun := runForward_spec oracle e stk k op.steps 0 hsucc hkstep hfail
  unfold executeAtomicOperation
  rw [hrun]
  dsimp only
  have hrange : (List.range k).map (· + 0) = List.range k := by simp
  rw [hrange, rollbackSweep_spec]
  rfl

/-- Elements of the counterexample saga: a validation step with no declared
compensation followed by a failing step. -/
def cexValidateStep : OperationStep :=
  { name := "validate_dependencies"
    service := "dependency_manager"
    operation := "validate_circular_dependencies"
    parameters := [("agent_name", "a")] }

/-- The failing second step of the counterexample saga. -/
def cexFailingStep : OperationStep :=
  { name := "create_agent_files"
    service := "agent_factory"
    operation := "create_agent"
    parameters := [("agent_name", "a")]
    rollback_operation := some "delete_agent"
    rollback_parameters := some [("agent_name", "a")] }

/-- Oracle for the counterexample saga: the second step raises. -/
def cexOracle : StepOracle := fun st =>
  if st.name = "create_agent_files" then .error "disk full" else .ok "ok"

/-- The two-step counterexample saga. -/
def cexOperation : AtomicOperation :=
  { operation_id := "op_cex", operation_type := "create_agent"
    steps := [cexValidateStep, cexFailingStep] }

/-- Counterexample to C1 as stated: step index 1 fails after step index 0
completed, yet step 0 receives **zero** rollback invocations because it
pre-declares no compensating operation (`rollback_operation = None`); and
the failing step itself *is* attempted (its execution event is in the
trace), contradicting "step k ... never executed". -/
theorem saga_failure_rolls_back_completed_steps_cex :
    (executeAtomicOperation cexOracle cexOperation).completedSteps = [0] ∧
    (executeAtomicOperation cexOracle cexOperation).failedStep = some 1 ∧
    OpEvent.exec 1 cexFailingStep ∈ (executeAtomicOperation cexOracle cexOperation).events ∧
    ((executeAtomicOperation cexOracle cexOperation).events.countP
      (fun ev => match ev with | OpEvent.rollback _ _ => true | _ => false)) = 0 := by
  decide

/-- The failing fourth step of the witness saga. -/
def witPromptStep : OperationStep :=
  { name := "update_prompts", service := "prompt_manager"
    operation := "cascade_update_on_agent_addition", parameters := [] }

/-- The four-step witness saga: a compensation-free validation step, two
steps with declared compensations, then the failing step. -/
def witOperation : AtomicOperation :=
  { operation_id := "op_wit", operation_type := "create_agent"
    steps :=
      [ { name := "validate_dependencies", service := "dependency_manager"
          operation := "validate_circular_dependencies", parameters := [] }
      , { name := "create_agent_files", service := "agent_factory"
          operation := "create_agent", parameters := []
          rollback_operation := some "delete_agent"
          rollback_parameters := some [("agent_name", "a")] }
      , { name := "create_database_record", service := "database"
          operation := "create_agent_record", parameters := []
          rollback_operation := some "delete_agent_record"
          rollback_parameters := some [("agent_name", "a")] }
      , witPromptStep ] }

/-- Oracle for the witness saga: the fourth step raises, and one of the
rollback invocations raises as well (the sweep still runs to completion). -/
def witOracle : StepOracle := fun st =>
  if st.name = "update_prompts" then .error "llm timeout"
  else if st.name = "rollback_create_agent_files" then .error "cleanup failed"
  else .ok "ok"

/-- Witness for C1's amended statement on the four-step saga: failure at
index 3 completes steps 0–2, even though one rollback invocation itself
fails. -/
theorem saga_failure_rolls_back_completed_steps_witness :
    (executeAtomicOperation witOracle witOperation).completedSteps = List.range 3 := by
  rw [saga_failure_rolls_back_completed_steps witOracle witOperation 3
    witPromptStep "llm timeout" (by decide) (by rfl) (by rfl)]

/-! ## Chain-length computation: totality on arbitrary (even cyclic) graphs -/

theorem findNode_mem_names {nodes : List DependencyNode} {name : String}
    {n : DependencyNode} (h : findNode nodes name = some n) :
    name ∈ nodeNames nodes := by
  obtain ⟨hmem, hname⟩ := findNode_some h
  exact List.mem_map.mpr ⟨n, hmem, hname⟩

/-- Number of graph keys not yet in the visited set: the measure that each
level of `_calculate_dependency_chain_length`'s recursion strictly
decreases. -/
def chainFuelNeed (nodes : List DependencyNode) (visited : List String) : Nat :=
  ((nodeNames nodes).filter (fun a => ¬ a ∈ visited)).length

theorem length_filter_lt_of_strict {l : List String} {p q : String → Bool}
    (himp : ∀ a, p a = true → q a = true) {x : String} (hx : x ∈ l)
    (hpx : p x = false) (hqx : q x = true) :
    (l.filter p).length < (l.filter q).length := by
  induction l with
  | nil => cases hx
  | cons y t ih =>
    rcases List.mem_cons.mp hx with hy | ht
    · subst hy
      rw [List.filter_cons, List.filter_cons, hpx, hqx]
      simp only [if_true, if_false, List.length_cons]
      exact Nat.lt_succ_of_le ((List.monotone_filter_right t himp).length_le)
    · rw [List.filter_cons, List.filter_cons]
      cases hpy : p y with
      | false =>
        cases hqy : q y with
        | false => simpa using ih ht
        | true =>
          simp only [if_false, if_true, List.length_cons]
          exact Nat.lt_succ_of_le (Nat.le_of_lt (ih ht))
      | true =>
        have hqy : q y = true := himp y hpy
        rw [hqy]
        simpa using Nat.succ_lt_succ (ih ht)

theorem chainFuelNeed_push {nodes : List DependencyNode} {visited : List String}
    {agent : String} (hmem : agent ∈ nodeNames nodes) (hvis : ¬ agent ∈ visited) :
    chainFuelNeed nodes (visited ++ [agent]) < chainFuelNeed nodes visited := by
  refine length_filter_lt_of_strict (l := nodeNames nodes)
    (p := fun a => ¬ a ∈ visited ++ [agent]) (q := fun a => ¬ a ∈ visited)
    (fun a ha => ?_) hmem (by simp) (by simpa using hvis)
  simp only [decide_eq_true_eq, List.mem_append] at ha ⊢
  exact fun h => ha (Or.inl h)

/-- Fuel-irrelevance of the chain-length computation: any two fuels above
the number of unvisited keys give the same result. -/
theorem calculateDependencyChainLength_stable (nodes : List DependencyNode) :
    ∀ (bnd : Nat) (visited : List String) (agent : String) (f1 f2 : Nat),
      chainFuelNeed nodes visited ≤ bnd → bnd < f1 → bnd < f2 →
      calculateDependencyChainLength nodes f1 visited agent =
      calculateDependencyChainLength nodes f2 visited agent := by
  intro bnd
  induction bnd with
  | zero =>
    intro visited agent f1 f2 hbnd hf1 hf2
    obtain ⟨g1, rfl⟩ : ∃ g, f1 = g + 1 := ⟨f1 - 1, by omega⟩
    obtain ⟨g2, rfl⟩ : ∃ g, f2 = g + 1 := ⟨f2 - 1, by omega⟩
    show (if agent ∈ visited then 0 else _) = (if agent ∈ visited then 0 else _)
    by_cases hvis : agent ∈ visited
    · rw [if_pos hvis, if_pos hvis]
    · rw [if_neg hvis, if_neg hvis]
      cases hfind : findNode nodes agent with
      | none => rfl
      | some node =>
        exfalso
        have hmem := findNode_mem_names hfind
        have : 0 < chainFuelNeed nodes visited := by
          unfold chainFuelNeed
          have : agent ∈ (nodeNames nodes).filter (fun a => ¬ a ∈ visited) :=
            List.mem_filter.mpr ⟨hmem, by simpa using hvis⟩
          exact List.length_pos.mpr (List.ne_nil_of_mem this)
        omega
  | succ bnd ih =>
    intro visited agent f1 f2 hbnd hf1 hf2
    obtain ⟨g1, rfl⟩ : ∃ g, f1 = g + 1 := ⟨f1 - 1, by omega⟩
    obtain ⟨g2, rfl⟩ : ∃ g, f2 = g + 1 := ⟨f2 - 1, by omega⟩
    show (if agent ∈ visited then 0 else _) = (if agent ∈ visited then 0 else _)
    by_cases hvis : agent ∈ visited
    · rw [if_pos hvis, if_pos hvis]
    · rw [if_neg hvis, if_neg hvis]
      cases hfind : findNode nodes agent with
      | none => rfl
      | some node =>
        dsimp only
        by_cases hdeps : node.dependencies.isEmpty
        · rw [if_pos hdeps, if_pos hdeps]
        · rw [if_neg hdeps, if_neg hdeps]
          have hmem := findNode_mem_names hfind
          have hdec := chainFuelNeed_push hmem hvis
          refine congrArg (· + 1) (List.foldl_ext _ _ 0 (fun m dep _ => ?_))
          refine congrArg (max m) (ih (visited ++ [agent]) dep g1 g2 (by omega)
            (by omega) (by omega))

/-- C9: `_calculate_dependency_chain_length` is total on every finite graph,
cyclic ones included: once the fuel exceeds the number of keys not yet
visited, the fuel-indexed computation is constant — i.e. the source's
unbounded recursion terminates with that value — and a name already in the
per-call visited set contributes 0 (the cycle guard) for **every** fuel,
rather than recursing forever. -/
theorem chain_length_total (nodes : List DependencyNode) (visited : List String)
    (agent : String) :
    (∀ f1 f2 : Nat, chainFuelNeed nodes visited < f1 → chainFuelNeed nodes visited < f2 →
      calculateDependencyChainLength nodes f1 visited agent =
      calculateDependencyChainLength nodes f2 visited agent) ∧
    (agent ∈ visited → ∀ f : Nat,
      calculateDependencyChainLength nodes f visited agent = 0) := by
  constructor
  · intro f1 f2 hf1 hf2
    exact calculateDependencyChainLength_stable nodes (chainFuelNeed nodes visited)
      visited agent f1 f2 (le_refl _) hf1 hf2
  · intro hvis f
    cases f with
    | zero => rfl
    | succ g =>
      show (if agent ∈ visited then 0 else _) = 0
      rw [if_pos hvis]

/-- Witness for C9 on the two-node cyclic graph `A ↔ B`: fuel 3 and fuel 10
agree from the empty visited set, and on revisiting `A` the contribution is
0 even with ample fuel. -/
theorem chain_length_total_witness :
    calculateDependencyChainLength
        [⟨"A", 1, ["B"], ["B"]⟩, ⟨"B", 2, ["A"], ["A"]⟩] 3 [] "A" =
      calculateDependencyChainLength
        [⟨"A", 1, ["B"], ["B"]⟩, ⟨"B", 2, ["A"], ["A"]⟩] 10 [] "A" ∧
    calculateDependencyChainLength
        [⟨"A", 1, ["B"], ["B"]⟩, ⟨"B", 2, ["A"], ["A"]⟩] 10 ["A", "B"] "A" = 0 := by
  constructor
  · exact (chain_length_total [⟨"A", 1, ["B"], ["B"]⟩, ⟨"B", 2, ["A"], ["A"]⟩] [] "A").1
      3 10 (by decide) (by decide)
  · exact (chain_length_total [⟨"A", 1, ["B"], ["B"]⟩, ⟨"B", 2, ["A"], ["A"]⟩]
      ["A", "B"] "A").2 (by decide) 10

/-! ## Cycle detection -/

/-- Acyclicity of a finite dependency graph, expressed by a rank function
that strictly increases along every dependency edge (for a finite graph this
is equivalent to containing no directed cycle; the rank of the keys can
always be compressed below the number of nodes). -/
def AcyclicGraph (nodes : List DependencyNode) : Prop :=
  ∃ r : String → Nat,
    (∀ m ∈ nodes, ∀ d ∈ m.dependencies, r m.name < r d) ∧
    (∀ a ∈ nodeNames nodes, r a ≤ nodes.length)

theorem dfsDetect_succ (nodes : List DependencyNode) (fuel : Nat) (n : String)
    (s : DfsState) :
    dfsDetect nodes (fuel + 1) n s =
      if n ∈ s.path then
        { s with cycles := s.cycles ++ [s.path.drop (s.path.indexOf n) ++ [n]] }
      else if n ∈ s.visited then s
      else
        let s1 : DfsState := { s with visited := s.visited ++ [n], path := s.path ++ [n] }
        let s2 :=
          match findNode nodes n with
          | some nd => nd.dependencies.foldl (fun t d => dfsDetect nodes fuel d t) s1
          | none => s1
        { s2 with path := s2.path.dropLast } := rfl

/-- The DFS restores the path stack it was called with (every push is
matched by the final pop). -/
theorem dfsDetect_path (nodes : List DependencyNode) :
    ∀ (fuel : Nat) (n : String) (s : DfsState),
      (dfsDetect nodes fuel n s).path = s.path := by
  intro fuel
  induction fuel with
  | zero => intro n s; rfl
  | succ fuel ih =>
    intro n s
    rw [dfsDetect_succ]
    by_cases h1 : n ∈ s.path
    · rw [if_pos h1]
    · rw [if_neg h1]
      by_cases h2 : n ∈ s.visited
      · rw [if_pos h2]
      · rw [if_neg h2]
        dsimp only
        have hfold : ∀ (l : List String) (t : DfsState), t.path = s.path ++ [n] →
            (l.foldl (fun t d => dfsDetect nodes fuel d t) t).path = s.path ++ [n] := by
          intro l
          induction l with
          | nil => intro t ht; exact ht
          | cons d rest ihl =>
            intro t ht
            exact ihl _ (by rw [ih]; exact ht)
        cases hfind : findNode nodes n with
        | none => simp
        | some nd =>
          rw [hfold nd.dependencies _ rfl]
          exact List.dropLast_concat ..

/-- The DFS only appends to the accumulated cycle list. -/
theorem dfsDetect_cycles_mono (nodes : List DependencyNode) :
    ∀ (fuel : Nat) (n : String) (s : DfsState),
      ∃ t, (dfsDetect nodes fuel n s).cycles = s.cycles ++ t := by
  intro fuel
  induction fuel with
  | zero => intro n s; exact ⟨[], by show s.cycles = s.cycles ++ []; simp⟩
  | succ fuel ih =>
    intro n s
    rw [dfsDetect_succ]
    by_cases h1 : n ∈ s.path
    · rw [if_pos h1]
      exact ⟨_, rfl⟩
    · rw [if_neg h1]
      by_cases h2 : n ∈ s.visited
      · rw [if_pos h2]; exact ⟨[], by simp⟩
      · rw [if_neg h2]
        dsimp only
        have hfold : ∀ (l : List String) (t : DfsState),
            (∃ u, t.cycles = s.cycles ++ u) →
            ∃ u, (l.foldl (fun t d => dfsDetect nodes fuel d t) t).cycles = s.cycles ++ u := by
          intro l
          induction l with
          | nil => intro t ht; exact ht
          | cons d rest ihl =>
            intro t ht
            refine ihl _ ?_
            obtain ⟨u, hu⟩ := ht
            obtain ⟨v, hv⟩ := ih d t
            exact ⟨u ++ v, by rw [hv, hu, List.append_assoc]⟩
        cases hfind : findNode nodes n with
        | none => exact ⟨[], by simp⟩
        | some nd => exact hfold nd.dependencies _ ⟨[], by simp⟩

/-- On a ranked (acyclic) graph, a DFS started at a name ranked above every
name on the current path records no cycle: the path always keeps strictly
increasing rank, so the `n ∈ path` branch is unreachable. -/
theorem dfsDetect_acyclic_no_new_cycle (nodes : List DependencyNode)
    (r : String → Nat) (hr : ∀ m ∈ nodes, ∀ d ∈ m.dependencies, r m.name < r d) :
    ∀ (fuel : Nat) (n : String) (s : DfsState),
      (∀ x ∈ s.path, r x < r n) →
      (dfsDetect nodes fuel n s).cycles = s.cycles := by
  intro fuel
  induction fuel with
  | zero => exact fun n s _ => rfl
  | succ fuel ih =>
    intro n s hpath
    rw [dfsDetect_succ]
    have h1 : ¬ n ∈ s.path := fun h => absurd (hpath n h) (lt_irrefl _)
    rw [if_neg h1]
    by_cases h2 : n ∈ s.visited
    · rw [if_pos h2]
    · rw [if_neg h2]
      dsimp only
      cases hfind : findNode nodes n with
      | none => simp
      | some nd =>
        obtain ⟨hndmem, hndname⟩ := findNode_some hfind
        have hfold : ∀ (l : List String), (∀ d ∈ l, d ∈ nd.dependencies) →
            ∀ (t : DfsState), t.cycles = s.cycles → t.path = s.path ++ [n] →
            (l.foldl (fun t d => dfsDetect nodes fuel d t) t).cycles = s.cycles := by
          intro l
          induction l with
          | nil => intro _ t ht _; exact ht
          | cons d rest ihl =>
            intro hsub t ht htp
            refine ihl (fun x hx => hsub x (List.mem_cons_of_mem d hx)) _ ?_ ?_
            · rw [ih d t ?_, ht]
              intro x hx
              rw [htp] at hx
              have hnd : r n < r d := by
                have := hr nd hndmem d (hsub d (List.mem_cons_self d rest))
                rwa [hndname] at this
              rcases List.mem_append.mp hx with hx | hx
              · exact lt_trans (hpath x hx) hnd
              · have : x = n := by simpa using hx
                rw [this]; exact hnd
            · rw [dfsDetect_path, htp]
        show (List.foldl (fun t d => dfsDetect nodes fuel d t)
          { visited := s.visited ++ [n], path := s.path ++ [n], cycles := s.cycles }
          nd.dependencies).cycles = s.cycles
        exact hfold nd.dependencies (fun _ hx => hx) _ rfl rfl

/-- C6: on every acyclic dependency graph, `detect_circular_dependencies`
returns the empty list. -/
theorem detect_cycles_empty_on_acyclic (nodes : List DependencyNode)
    (hacyc : AcyclicGraph nodes) :
    detectCircularDependencies nodes = [] := by
  obtain ⟨r, hr, -⟩ := hacyc
  unfold detectCircularDependencies
  have h := foldl_invariant (fun s : DfsState => s.cycles = [] ∧ s.path = [])
    (fun s n => dfsDetect nodes (detectFuel nodes) n s) (nodeNames nodes)
    ⟨[], [], []⟩ ⟨rfl, rfl⟩ (fun s n _ hs => ?_)
  · exact h.1
  · refine ⟨?_, ?_⟩
    · rw [dfsDetect_acyclic_no_new_cycle nodes r hr _ n s ?_, hs.1]
      intro x hx
      rw [hs.2] at hx
      cases hx
    · rw [dfsDetect_path, hs.2]

/-- Witness for C6 on the acyclic M/A/S sample graph. -/
theorem detect_cycles_empty_on_acyclic_witness :
    detectCircularDependencies sampleGraphMAS = [] :=
  detect_cycles_empty_on_acyclic sampleGraphMAS
    ⟨fun a => if a = "S" then 0 else if a = "A" then 1 else 2, by decide, by decide⟩

/-! ## Cascade deletion order: topological validity -/

theorem addToOrder_succ (nodes : List DependencyNode) (affected : List String)
    (fuel : Nat) (agent : String) (s : OrderState) :
    addToOrder nodes affected (fuel + 1) agent s =
      if agent ∈ s.processed ∨ ¬ agent ∈ affected then s
      else
        let s1 :=
          match findNode nodes agent with
          | some nd =>
            nd.dependents.foldl
              (fun t dep =>
                if dep ∈ affected then addToOrder nodes affected fuel dep t else t) s
          | none => s
        if agent ∈ s1.processed then s1
        else { order := s1.order ++ [agent], processed := s1.processed ++ [agent] } := rfl

/-- `add_to_order` only appends, and appends the same names to the order and
to the processed set. -/
theorem addToOrder_suffix (nodes : List DependencyNode) (affected : List String) :
    ∀ (fuel : Nat) (agent : String) (s : OrderState),
      ∃ t, (addToOrder nodes affected fuel agent s).order = s.order ++ t ∧
        (addToOrder nodes affected fuel agent s).processed = s.processed ++ t := by
  intro fuel
  induction fuel with
  | zero => exact fun agent s => ⟨[], by simp [addToOrder]⟩
  | succ fuel ih =>
    intro agent s
    rw [addToOrder_succ]
    by_cases hguard : agent ∈ s.processed ∨ ¬ agent ∈ affected
    · rw [if_pos hguard]; exact ⟨[], by simp⟩
    · rw [if_neg hguard]
      dsimp only
      have hchain : ∀ (l : List String) (t : OrderState),
          ∃ u, (l.foldl (fun t dep =>
              if dep ∈ affected then addToOrder nodes affected fuel dep t else t) t).order =
            t.order ++ u ∧
          (l.foldl (fun t dep =>
              if dep ∈ affected then addToOrder nodes affected fuel dep t else t) t).processed =
            t.processed ++ u := by
        intro l
        induction l with
        | nil => exact fun t => ⟨[], by simp⟩
        | cons d rest ihl =>
          intro t
          rw [List.foldl_cons]
          by_cases hd : d ∈ affected
          · rw [if_pos hd]
            obtain ⟨u1, hu1o, hu1p⟩ := ih d t
            obtain ⟨u2, hu2o, hu2p⟩ := ihl (addToOrder nodes affected fuel d t)
            exact ⟨u1 ++ u2, by rw [hu2o, hu1o, List.append_assoc],
              by rw [hu2p, hu1p, List.append_assoc]⟩
          · rw [if_neg hd]; exact ihl t
      cases hfind : findNode nodes agent with
      | none =>
        by_cases hp2 : agent ∈ s.processed
        · rw [if_pos hp2]; exact ⟨[], by simp⟩
        · rw [if_neg hp2]; exact ⟨[agent], rfl, rfl⟩
      | some nd =>
        obtain ⟨u, huo, hup⟩ := hchain nd.dependents s
        by_cases hp2 : agent ∈ (nd.dependents.foldl (fun t dep =>
            if dep ∈ affected then addToOrder nodes affected fuel dep t else t) s).processed
        · rw [if_pos hp2]; exact ⟨u, huo, hup⟩
        · rw [if_neg hp2]
          exact ⟨u ++ [agent], by rw [huo, List.append_assoc],
            by rw [hup, List.append_assoc]⟩

/-- Invariant of the deletion-order construction: order and processed agree,
the order is duplicate-free, contains only affected agents, and every placed
agent comes strictly after each of its affected dependents. -/
def GoodState (nodes : List DependencyNode) (affected : List String)
    (s : OrderState) : Prop :=
  s.processed = s.order ∧ s.order.Nodup ∧ (∀ x ∈ s.order, x ∈ affected) ∧
  ∀ Y nY, Y ∈ s.order → findNode nodes Y = some nY →
    ∀ X, X ∈ nY.dependents → X ∈ affected →
      X ∈ s.order ∧ s.order.indexOf X < s.order.indexOf Y

/-- Appending a fresh agent whose affected dependents are all already placed
preserves the invariant. -/
theorem goodState_append (nodes : List DependencyNode) (affected : List String)
    {s : OrderState} (hgood : GoodState nodes affected s) {agent : String}
    (hproc : ¬ agent ∈ s.processed) (haff : agent ∈ affected)
    (hdeps : ∀ nY, findNode nodes agent = some nY →
      ∀ X ∈ nY.dependents, X ∈ affected → X ∈ s.processed) :
    GoodState nodes affected
      ⟨s.order ++ [agent], s.processed ++ [agent]⟩ := by
  obtain ⟨hpo, hnodup, hmem, hpairs⟩ := hgood
  have hnotin : ¬ agent ∈ s.order := by rw [← hpo]; exact hproc
  refine ⟨by rw [hpo], ?_, ?_, ?_⟩
  · simp [List.nodup_append, hnodup, hnotin]
  · intro x hx
    rcases List.mem_append.mp hx with hx | hx
    · exact hmem x hx
    · have : x = agent := by simpa using hx
      rw [this]; exact haff
  · intro Y nY hY hfindY X hX hXaff
    dsimp only at hY ⊢
    rcases List.mem_append.mp hY with hYold | hYnew
    · obtain ⟨hXmem, hidx⟩ := hpairs Y nY hYold hfindY X hX hXaff
      refine ⟨List.mem_append_left _ hXmem, ?_⟩
      rw [List.indexOf_append_of_mem hXmem, List.indexOf_append_of_mem hYold]
      exact hidx
    · have hYa : Y = agent := by simpa using hYnew
      subst hYa
      have hXproc : X ∈ s.processed := hdeps nY hfindY X hX hXaff
      have hXord : X ∈ s.order := by rw [← hpo]; exact hXproc
      refine ⟨List.mem_append_left _ hXord, ?_⟩
      rw [List.indexOf_append_of_mem hXord,
        List.indexOf_append_of_not_mem hnotin, List.indexOf_cons_self]
      have := List.indexOf_lt_length.mpr hXord
      omega

/-- Key lemma: with well-formed reverse edges and a dependency rank (the
graph is acyclic), `add_to_order` preserves the invariant whenever its fuel
exceeds the agent's rank — the recursion into dependents strictly descends
in rank — and afterwards the agent is placed (if affected). -/
theorem addToOrder_good (nodes : List DependencyNode) (affected : List String)
    (r : String → Nat)
    (hwf1 : ∀ n ∈ nodes, ∀ d ∈ n.dependents,
      ∃ m ∈ nodes, m.name = d ∧ n.name ∈ m.dependencies)
    (hr : ∀ m ∈ nodes, ∀ d ∈ m.dependencies, r m.name < r d) :
    ∀ (fuel : Nat) (agent : String) (s : OrderState), r agent < fuel →
      GoodState nodes affected s →
      GoodState nodes affected (addToOrder nodes affected fuel agent s) ∧
      (agent ∈ affected → agent ∈ (addToOrder nodes affected fuel agent s).processed) := by
  intro fuel
  induction fuel with
  | zero => intro agent s hra _; exact absurd hra (Nat.not_lt_zero _)
  | succ fuel ih =>
    intro agent s hra hgood
    rw [addToOrder_succ]
    by_cases hguard : agent ∈ s.processed ∨ ¬ agent ∈ affected
    · rw [if_pos hguard]
      refine ⟨hgood, fun haff => ?_⟩
      rcases hguard with h | h
      · exact h
      · exact absurd haff h
    · rw [if_neg hguard]
      push_neg at hguard
      obtain ⟨hproc, haff⟩ := hguard
      dsimp only
      cases hfind : findNode nodes agent with
      | none =>
        by_cases hp2 : agent ∈ s.processed
        · exact absurd hp2 hproc
        · rw [if_neg hp2]
          refine ⟨goodState_append nodes affected hgood hproc haff
            (fun nY h => by rw [hfind] at h; cases h), fun _ => by simp⟩
      | some nd =>
        obtain ⟨hndmem, hndname⟩ := findNode_some hfind
        have hrankdep : ∀ d ∈ nd.dependents, r d < r agent := by
          intro d hd
          obtain ⟨m, hm, hmname, hmdep⟩ := hwf1 nd hndmem d hd
          have := hr m hm nd.name hmdep
          rw [hmname, hndname] at this
          exact this
        have hchain : ∀ (l : List String), (∀ d ∈ l, d ∈ nd.dependents) →
            ∀ t : OrderState, GoodState nodes affected t →
            GoodState nodes affected (l.foldl (fun t dep =>
              if dep ∈ affected then addToOrder nodes affected fuel dep t else t) t) ∧
            (∀ d ∈ l, d ∈ affected →
              d ∈ (l.foldl (fun t dep =>
                if dep ∈ affected then addToOrder nodes affected fuel dep t else t)
                t).processed) := by
          intro l
          induction l with
          | nil => intro _ t ht; exact ⟨ht, fun d hd => absurd hd (List.not_mem_nil d)⟩
          | cons d rest ihl =>
            intro hsub t ht
            rw [List.foldl_cons]
            by_cases hd : d ∈ affected
            · rw [if_pos hd]
              have hrd : r d < fuel := by
                have := hrankdep d (hsub d (List.mem_cons_self d rest))
                omega
              obtain ⟨ht', hdmem⟩ := ih d t hrd ht
              obtain ⟨hrest, hrestmem⟩ :=
                ihl (fun x hx => hsub x (List.mem_cons_of_mem d hx)) _ ht'
              refine ⟨hrest, fun x hx hxaff => ?_⟩
              rcases List.mem_cons.mp hx with hxd | hxrest
              · subst hxd
                have hx1 : x ∈ (addToOrder nodes affected fuel x t).processed := hdmem hxaff
                have hchain2 : ∀ (l2 : List String) (t2 : OrderState),
                    x ∈ t2.processed →
                    x ∈ (l2.foldl (fun t dep =>
                      if dep ∈ affected then addToOrder nodes affected fuel dep t else t)
                      t2).processed := by
                  intro l2
                  induction l2 with
                  | nil => exact fun t2 h => h
                  | cons d2 rest2 ihl2 =>
                    intro t2 h2
                    rw [List.foldl_cons]
                    refine ihl2 _ ?_
                    by_cases hd2 : d2 ∈ affected
                    · rw [if_pos hd2]
                      obtain ⟨u, -, hup⟩ := addToOrder_suffix nodes affected fuel d2 t2
                      rw [hup]
                      exact List.mem_append_left _ h2
                    · rw [if_neg hd2]; exact h2
                exact hchain2 rest _ hx1
              · exact hrestmem x hxrest hxaff
            · rw [if_neg hd]
              obtain ⟨hrest, hrestmem⟩ :=
                ihl (fun x hx => hsub x (List.mem_cons_of_mem d hx)) t ht
              refine ⟨hrest, fun x hx hxaff => ?_⟩
              rcases List.mem_cons.mp hx with hxd | hxrest
              · subst hxd; exact absurd hxaff hd
              · exact hrestmem x hxrest hxaff
        obtain ⟨hgood1, hmem1⟩ := hchain nd.dependents (fun _ hx => hx) s hgood
        by_cases hp2 : agent ∈ (nd.dependents.foldl (fun t dep =>
            if dep ∈ affected then addToOrder nodes affected fuel dep t else t) s).processed
        · rw [if_pos hp2]
          exact ⟨hgood1, fun _ => hp2⟩
        · rw [if_neg hp2]
          refine ⟨goodState_append nodes affected hgood1 hp2 haff (fun nY h X hX hXaff => ?_),
            fun _ => by simp⟩
          rw [hfind] at h
          have hnd : nY = nd := by injection h.symm
          rw [hnd] at hX
          exact hmem1 X hX hXaff

theorem computeAffected_succ (nodes : List DependencyNode) (fuel : Nat)
    (tp acc : List String) :
    computeAffected nodes (fuel + 1) tp acc =
      match tp.getLast? with
      | none => acc
      | some current =>
        if current ∈ acc then computeAffected nodes fuel tp.dropLast acc
        else
          match findNode nodes current with
          | some nd =>
            computeAffected nodes fuel (tp.dropLast ++ nd.dependents) (acc ++ [current])
          | none => computeAffected nodes fuel tp.dropLast (acc ++ [current]) := rfl

theorem mem_of_getLast?_eq {l : List String} {a : String} (h : l.getLast? = some a) :
    a ∈ l := by
  rcases List.mem_getLast?_eq_getLast (l := l) (x := a) (by rw [h]; rfl) with ⟨hne, hx⟩
  rw [hx]
  exact List.getLast_mem hne

/-- Everything the cascade worklist collects is a node name of the graph
(the worklist starts at a node and expands through well-formed reverse
edges). -/
theorem computeAffected_subset (nodes : List DependencyNode)
    (hwf1 : ∀ n ∈ nodes, ∀ d ∈ n.dependents,
      ∃ m ∈ nodes, m.name = d ∧ n.name ∈ m.dependencies) :
    ∀ (fuel : Nat) (tp acc : List String),
      (∀ x ∈ tp, x ∈ nodeNames nodes) → (∀ x ∈ acc, x ∈ nodeNames nodes) →
      ∀ x ∈ computeAffected nodes fuel tp acc, x ∈ nodeNames nodes := by
  intro fuel
  induction fuel with
  | zero => intro tp acc _ hacc; exact hacc
  | succ fuel ih =>
    intro tp acc htp hacc
    rw [computeAffected_succ]
    cases hlast : tp.getLast? with
    | none => exact hacc
    | some current =>
      dsimp only
      have hcur : current ∈ nodeNames nodes := htp current (mem_of_getLast?_eq hlast)
      have htp' : ∀ x ∈ tp.dropLast, x ∈ nodeNames nodes :=
        fun x hx => htp x ((List.dropLast_sublist tp).subset hx)
      by_cases hin : current ∈ acc
      · rw [if_pos hin]
        exact ih tp.dropLast acc htp' hacc
      · rw [if_neg hin]
        have hacc' : ∀ x ∈ acc ++ [current], x ∈ nodeNames nodes := by
          intro x hx
          rcases List.mem_append.mp hx with hx | hx
          · exact hacc x hx
          · have : x = current := by simpa using hx
            rw [this]; exact hcur
        cases hfind : findNode nodes current with
        | none => exact ih tp.dropLast (acc ++ [current]) htp' hacc'
        | some nd =>
          refine ih (tp.dropLast ++ nd.dependents) (acc ++ [current]) ?_ hacc'
          intro x hx
          rcases List.mem_append.mp hx with hx | hx
          · exact htp' x hx
          · obtain ⟨m, hm, hmname, -⟩ := hwf1 nd (findNode_some hfind).1 x hx
            exact List.mem_map.mpr ⟨m, hm, hmname⟩

/-- C4: on every acyclic, well-formed dependency graph, the deletion order
produced by `analyze_deletion_impact` for a target with at least one
dependent is topologically valid: whenever `X` and `Y` both appear in the
order and `X` depends on `Y`, `X` appears strictly before `Y`
(dependents-first, roots-last).  Well-formedness ties the stored `dependents`
lists to the dependency lists (as the builder guarantees in both directions)
and requires dependency references to resolve in the graph. -/
theorem deletion_order_topological (nodes : List DependencyNode) (target : String)
    (tn : DependencyNode)
    (hwf1 : ∀ n ∈ nodes, ∀ d ∈ n.dependents,
      ∃ m ∈ nodes, m.name = d ∧ n.name ∈ m.dependencies)
    (hwf2 : ∀ m ∈ nodes, ∀ Y ∈ m.dependencies, ∀ nY ∈ nodes, nY.name = Y →
      m.name ∈ nY.dependents)
    (hclosed : ∀ n ∈ nodes, ∀ d ∈ n.dependencies, ∃ m ∈ nodes, m.name = d)
    (hacyc : AcyclicGraph nodes)
    (htarget : findNode nodes target = some tn)
    (hdept : tn.dependents ≠ []) :
    ∀ X Y nX,
      X ∈ (analyzeDeletionImpact nodes target).deletion_order →
      Y ∈ (analyzeDeletionImpact nodes target).deletion_order →
      findNode nodes X = some nX → Y ∈ nX.dependencies →
      (analyzeDeletionImpact nodes target).deletion_order.indexOf X <
        (analyzeDeletionImpact nodes target).deletion_order.indexOf Y := by
  have hplan : (analyzeDeletionImpact nodes target).deletion_order =
      calculateCascadeDeletionOrder nodes target := by
    unfold analyzeDeletionImpact
    rw [htarget]
    dsimp only
    rw [if_neg (show ¬ (tn.dependents.isEmpty = true) by simpa using hdept)]
  obtain ⟨r, hr, hbound⟩ := hacyc
  intro X Y nX hX hY hfindX hYdep
  rw [hplan] at hX hY ⊢
  set A := computeAffected nodes (affectedFuel nodes) [target] [] with hA
  have hident : calculateCascadeDeletionOrder nodes target =
      (A.foldl (fun s a => addToOrder nodes A (nodes.length + 1) a s) ⟨[], []⟩).order := rfl
  have hAsub : ∀ x ∈ A, x ∈ nodeNames nodes := by
    rw [hA]
    exact computeAffected_subset nodes hwf1 (affectedFuel nodes) [target] []
      (fun x hx => by
        have hx' : x = target := by simpa using hx
        rw [hx']; exact findNode_mem_names htarget)
      (fun x hx => absurd hx (List.not_mem_nil x))
  have hgoodfinal : GoodState nodes A
      (A.foldl (fun s a => addToOrder nodes A (nodes.length + 1) a s) ⟨[], []⟩) := by
    refine foldl_invariant (GoodState nodes A) _ A ⟨[], []⟩
      ⟨rfl, List.nodup_nil, fun x hx => absurd hx (List.not_mem_nil x),
        fun Z nZ hZ => absurd hZ (List.not_mem_nil Z)⟩ (fun s a ha hs => ?_)
    refine (addToOrder_good nodes A r hwf1 hr (nodes.length + 1) a s ?_ hs).1
    have := hbound a (hAsub a ha)
    omega
  rw [hident] at hX hY ⊢
  obtain ⟨hpo, hnodup, hmemaff, hpairs⟩ := hgoodfinal
  obtain ⟨hnXmem, hnXname⟩ := findNode_some hfindX
  obtain ⟨m, hm, hmname⟩ := hclosed nX hnXmem Y hYdep
  obtain ⟨nY, hnY⟩ : ∃ nY, findNode nodes Y = some nY := by
    have : (findNode nodes Y).isSome := by
      unfold findNode
      rw [List.find?_isSome]
      exact ⟨m, hm, by simp [hmname]⟩
    exact Option.isSome_iff_exists.mp this
  have hXdeps : X ∈ nY.dependents := by
    have := hwf2 nX hnXmem Y hYdep nY (findNode_some hnY).1 (findNode_some hnY).2
    rwa [hnXname] at this
  exact (hpairs Y nY hY hnY X hXdeps (hmemaff X hX)).2

/-- Witness for C4: deleting `M` in the sample graph gives the order
`[S, A, M]`, and indeed `S` (which depends on `A`) comes strictly before
`A`. -/
theorem deletion_order_topological_witness :
    (analyzeDeletionImpact sampleGraphMAS "M").deletion_order.indexOf "S" <
      (analyzeDeletionImpact sampleGraphMAS "M").deletion_order.indexOf "A" :=
  deletion_order_topological sampleGraphMAS "M" ⟨"M", 1, [], ["A", "S"]⟩
    (by decide) (by decide) (by decide)
    ⟨fun a => if a = "S" then 0 else if a = "A" then 1 else 2, by decide, by decide⟩
    (by decide) (by decide)
    "S" "A" ⟨"S", 3, ["M", "A"], []⟩ (by decide) (by decide) (by decide) (by decide)

/-! ## Cycle detection on a two-node cycle -/

/-- The DFS only appends to the visited set. -/
theorem dfsDetect_visited_mono (nodes : List DependencyNode) :
    ∀ (fuel : Nat) (n : String) (s : DfsState),
      ∃ t, (dfsDetect nodes fuel n s).visited = s.visited ++ t := by
  intro fuel
  induction fuel with
  | zero => exact fun n s => ⟨[], by simp [dfsDetect]⟩
  | succ fuel ih =>
    intro n s
    rw [dfsDetect_succ]
    by_cases h1 : n ∈ s.path
    · rw [if_pos h1]; exact ⟨[], by simp⟩
    · rw [if_neg h1]
      by_cases h2 : n ∈ s.visited
      · rw [if_pos h2]; exact ⟨[], by simp⟩
      · rw [if_neg h2]
        dsimp only
        have hfold : ∀ (l : List String) (t : DfsState),
            (∃ u, t.visited = s.visited ++ [n] ++ u) →
            ∃ u, (l.foldl (fun t d => dfsDetect nodes fuel d t) t).visited =
              s.visited ++ [n] ++ u := by
          intro l
          induction l with
          | nil => exact fun t ht => ht
          | cons d rest ihl =>
            intro t ht
            refine ihl _ ?_
            obtain ⟨u, hu⟩ := ht
            obtain ⟨v, hv⟩ := ih d t
            exact ⟨u ++ v, by rw [hv, hu, List.append_assoc]⟩
        cases hfind : findNode nodes n with
        | none => exact ⟨[n], rfl⟩
        | some nd =>
          obtain ⟨u, hu⟩ := hfold nd.dependencies
            ⟨s.visited ++ [n], s.path ++ [n], s.cycles⟩ ⟨[], by simp⟩
          exact ⟨[n] ++ u, by rw [hu, List.append_assoc]⟩

/-- Path restoration for a whole dependency fold. -/
theorem dfsFold_path (nodes : List DependencyNode) (fuel : Nat) :
    ∀ (l : List String) (t : DfsState),
      (l.foldl (fun t d => dfsDetect nodes fuel d t) t).path = t.path := by
  intro l
  induction l with
  | nil => exact fun t => rfl
  | cons d rest ihl =>
    intro t
    rw [List.foldl_cons, ihl, dfsDetect_path]

/-- Visited monotonicity for a whole dependency fold. -/
theorem dfsFold_visited_mono (nodes : List DependencyNode) (fuel : Nat) :
    ∀ (l : List String) (t : DfsState),
      ∃ u, (l.foldl (fun t d => dfsDetect nodes fuel d t) t).visited = t.visited ++ u := by
  intro l
  induction l with
  | nil => exact fun t => ⟨[], by simp⟩
  | cons d rest ihl =>
    intro t
    rw [List.foldl_cons]
    obtain ⟨u, hu⟩ := dfsDetect_visited_mono nodes fuel d t
    obtain ⟨v, hv⟩ := ihl (dfsDetect nodes fuel d t)
    exact ⟨u ++ v, by rw [hv, hu, List.append_assoc]⟩

/-- Cycle monotonicity for a whole dependency fold. -/
theorem dfsFold_cycles_mono (nodes : List DependencyNode) (fuel : Nat) :
    ∀ (l : List String) (t : DfsState),
      ∃ u, (l.foldl (fun t d => dfsDetect nodes fuel d t) t).cycles = t.cycles ++ u := by
  intro l
  induction l with
  | nil => exact fun t => ⟨[], by simp⟩
  | cons d rest ihl =>
    intro t
    rw [List.foldl_cons]
    obtain ⟨u, hu⟩ := dfsDetect_cycles_mono nodes fuel d t
    obtain ⟨v, hv⟩ := ihl (dfsDetect nodes fuel d t)
    exact ⟨u ++ v, by rw [hv, hu, List.append_assoc]⟩

/-- Number of universe names not yet visited: the DFS's termination
measure. -/
def uMeasure (nodes : List DependencyNode) (visited : List String) : Nat :=
  ((nameUniverse nodes).filter (fun a => ¬ a ∈ visited)).length

theorem uMeasure_append_le (nodes : List DependencyNode) (v u : List String) :
    uMeasure nodes (v ++ u) ≤ uMeasure nodes v := by
  refine (List.monotone_filter_right _ (fun a ha => ?_)).length_le
  simp only [decide_eq_true_eq, List.mem_append] at ha ⊢
  exact fun h => ha (Or.inl h)

theorem uMeasure_push_lt (nodes : List DependencyNode) {v : List String} {a : String}
    (ha : a ∈ nameUniverse nodes) (hv : ¬ a ∈ v) :
    uMeasure nodes (v ++ [a]) < uMeasure nodes v := by
  refine length_filter_lt_of_strict (l := nameUniverse nodes)
    (p := fun x => ¬ x ∈ v ++ [a]) (q := fun x => ¬ x ∈ v) (fun x hx => ?_) ha
    (by simp) (by simpa using hv)
  simp only [decide_eq_true_eq, List.mem_append] at hx ⊢
  exact fun h => hx (Or.inl h)

theorem mem_nameUniverse_key {nodes : List DependencyNode} {name : String}
    (h : name ∈ nodeNames nodes) : name ∈ nameUniverse nodes :=
  List.mem_append_left _ h

theorem mem_nameUniverse_dep {nodes : List DependencyNode} {n : DependencyNode}
    {d : String} (hn : n ∈ nodes) (hd : d ∈ n.dependencies) :
    d ∈ nameUniverse nodes := by
  refine List.mem_append_right _ ?_
  have haux : ∀ (l : List DependencyNode) (acc : List String),
      (d ∈ acc ∨ ∃ m ∈ l, d ∈ m.dependencies) →
      d ∈ l.foldl (fun acc n => acc ++ n.dependencies) acc := by
    intro l
    induction l with
    | nil =>
      intro acc h
      rcases h with h | ⟨m, hm, -⟩
      · exact h
      · exact absurd hm (List.not_mem_nil m)
    | cons x rest ihl =>
      intro acc h
      rw [List.foldl_cons]
      refine ihl _ ?_
      rcases h with h | ⟨m, hm, hmd⟩
      · exact Or.inl (List.mem_append_left _ h)
      · rcases List.mem_cons.mp hm with hx | hrest
        · exact Or.inl (List.mem_append_right _ (hx ▸ hmd))
        · exact Or.inr ⟨m, hrest, hmd⟩
  exact haux nodes [] (Or.inr ⟨n, hn, hd⟩)

/-- Anchor lemma: suppose `B`'s node lists `A` among its dependencies, `A`
is currently on the DFS path and `B` is unvisited.  Then any DFS call (with
adequate fuel, on a universe name) either leaves `B` unvisited or has
recorded a cycle containing both `A` and `B`: the first real visit of `B`
recurses into `A`, which is still on the path, and the recorded sub-path
runs from `A`'s position through `B`. -/
theorem dfsDetect_with_anchor (nodes : List DependencyNode) (A B : String)
    (nb : DependencyNode) (hfindB : findNode nodes B = some nb)
    (hBdepA : A ∈ nb.dependencies) :
    ∀ (fuel : Nat) (n : String) (s : DfsState),
      A ∈ s.path → ¬ B ∈ s.visited → (∀ x ∈ s.path, x ∈ s.visited) →
      n ∈ nameUniverse nodes → uMeasure nodes s.visited < fuel →
      ¬ B ∈ (dfsDetect nodes fuel n s).visited ∨
      ∃ c ∈ (dfsDetect nodes fuel n s).cycles, A ∈ c ∧ B ∈ c := by
  intro fuel
  induction fuel with
  | zero => intro n s _ _ _ _ hfuel; exact absurd hfuel (Nat.not_lt_zero _)
  | succ fuel ih =>
    intro n s hApath hBvis hsub hnU hfuel
    have hBU : B ∈ nameUniverse nodes := mem_nameUniverse_key (findNode_mem_names hfindB)
    have hBpath : ¬ B ∈ s.path := fun h => hBvis (hsub B h)
    rw [dfsDetect_succ]
    by_cases h1 : n ∈ s.path
    · rw [if_pos h1]; exact Or.inl hBvis
    · rw [if_neg h1]
      by_cases h2 : n ∈ s.visited
      · rw [if_pos h2]; exact Or.inl hBvis
      · rw [if_neg h2]
        dsimp only
        by_cases hnB : n = B
        · rw [hnB, hfindB]
          dsimp only
          obtain ⟨l1, l2, hsplit⟩ := List.append_of_mem hBdepA
          rw [hsplit, List.foldl_append, List.foldl_cons]
          have htpath : (l1.foldl (fun t d => dfsDetect nodes fuel d t)
              ⟨s.visited ++ [B], s.path ++ [B], s.cycles⟩).path = s.path ++ [B] :=
            dfsFold_path nodes fuel l1 _
          have hAt : A ∈ (l1.foldl (fun t d => dfsDetect nodes fuel d t)
              ⟨s.visited ++ [B], s.path ++ [B], s.cycles⟩).path := by
            rw [htpath]; exact List.mem_append_left _ hApath
          have hμ1 : uMeasure nodes (s.visited ++ [B]) < uMeasure nodes s.visited :=
            uMeasure_push_lt nodes hBU hBvis
          have hfuelpos : 0 < fuel := by omega
          obtain ⟨g, rfl⟩ : ∃ g, fuel = g + 1 := ⟨fuel - 1, by omega⟩
          rw [dfsDetect_succ, if_pos hAt]
          refine Or.inr ?_
          obtain ⟨u2, hu2⟩ := dfsFold_cycles_mono nodes (g + 1) l2
            { l1.foldl (fun t d => dfsDetect nodes (g + 1) d t)
                ⟨s.visited ++ [B], s.path ++ [B], s.cycles⟩ with
              cycles := (l1.foldl (fun t d => dfsDetect nodes (g + 1) d t)
                ⟨s.visited ++ [B], s.path ++ [B], s.cycles⟩).cycles ++
                [(l1.foldl (fun t d => dfsDetect nodes (g + 1) d t)
                    ⟨s.visited ++ [B], s.path ++ [B], s.cycles⟩).path.drop
                  ((l1.foldl (fun t d => dfsDetect nodes (g + 1) d t)
                      ⟨s.visited ++ [B], s.path ++ [B], s.cycles⟩).path.indexOf A) ++ [A]] }
          refine ⟨(l1.foldl (fun t d => dfsDetect nodes (g + 1) d t)
              ⟨s.visited ++ [B], s.path ++ [B], s.cycles⟩).path.drop
                ((l1.foldl (fun t d => dfsDetect nodes (g + 1) d t)
                  ⟨s.visited ++ [B], s.path ++ [B], s.cycles⟩).path.indexOf A) ++ [A],
            ?_, ?_, ?_⟩
          · show _ ∈ (l2.foldl (fun t d => dfsDetect nodes (g + 1) d t) _).cycles
            rw [hu2]
            refine List.mem_append_left _ (List.mem_append_right _ ?_)
            exact List.mem_singleton.mpr rfl
          · exact List.mem_append_right _ (List.mem_singleton.mpr rfl)
          · rw [htpath]
            have hidx : (s.path ++ [B]).indexOf A = s.path.indexOf A :=
              List.indexOf_append_of_mem hApath
            have hlt : s.path.indexOf A < s.path.length := List.indexOf_lt_length.mpr hApath
            rw [hidx, List.drop_append_of_le_length (le_of_lt hlt)]
            exact List.mem_append_left _ (List.mem_append_right _
              (List.mem_singleton.mpr rfl))
        · cases hfind : findNode nodes n with
          | none =>
            refine Or.inl ?_
            dsimp only
            intro hmem
            rcases List.mem_append.mp hmem with h | h
            · exact hBvis h
            · have hBn : B = n := by simpa using h
              exact hnB hBn.symm
          | some nd =>
            obtain ⟨hndmem, -⟩ := findNode_some hfind
            have hchain : ∀ (l : List String), (∀ d ∈ l, d ∈ nd.dependencies) →
                ∀ t : DfsState, t.path = s.path ++ [n] →
                (∀ x ∈ t.path, x ∈ t.visited) →
                uMeasure nodes t.visited < fuel →
                (¬ B ∈ t.visited ∨ ∃ c ∈ t.cycles, A ∈ c ∧ B ∈ c) →
                (¬ B ∈ (l.foldl (fun t d => dfsDetect nodes fuel d t) t).visited ∨
                 ∃ c ∈ (l.foldl (fun t d => dfsDetect nodes fuel d t) t).cycles,
                   A ∈ c ∧ B ∈ c) := by
              intro l
              induction l with
              | nil => exact fun _ t _ _ _ h => h
              | cons d rest ihl =>
                intro hdl t htpath htsub htμ hdisj
                rw [List.foldl_cons]
                obtain ⟨v, hv⟩ := dfsDetect_visited_mono nodes fuel d t
                refine ihl (fun x hx => hdl x (List.mem_cons_of_mem d hx)) _ ?_ ?_ ?_ ?_
                · rw [dfsDetect_path, htpath]
                · intro x hx
                  rw [dfsDetect_path, htpath] at hx
                  rw [hv]
                  exact List.mem_append_left _ (htsub x (htpath ▸ hx))
                · calc uMeasure nodes (dfsDetect nodes fuel d t).visited
                      ≤ uMeasure nodes t.visited := by rw [hv]; exact uMeasure_append_le ..
                    _ < fuel := htμ
                · rcases hdisj with hB | ⟨c, hc, hcA, hcB⟩
                  · exact ih d t (by rw [htpath]; exact List.mem_append_left _ hApath) hB
                      htsub (mem_nameUniverse_dep hndmem (hdl d (List.mem_cons_self d rest)))
                      htμ
                  · refine Or.inr ⟨c, ?_, hcA, hcB⟩
                    obtain ⟨u, hu⟩ := dfsDetect_cycles_mono nodes fuel d t
                    rw [hu]
                    exact List.mem_append_left _ hc
            refine hchain nd.dependencies (fun _ hx => hx)
              ⟨s.visited ++ [n], s.path ++ [n], s.cycles⟩ rfl ?_ ?_ (Or.inl ?_)
            · intro x hx
              rcases List.mem_append.mp hx with h | h
              · exact List.mem_append_left _ (hsub x h)
              · exact List.mem_append_right _ h
            · show uMeasure nodes (s.visited ++ [n]) < fuel
              have := uMeasure_push_lt nodes hnU h2
              omega
            · show ¬ B ∈ s.visited ++ [n]
              intro hmem
              rcases List.mem_append.mp hmem with h | h
              · exact hBvis h
              · have hBn : B = n := by simpa using h
                exact hnB hBn.symm

/-- A DFS call on a name not currently on the path marks that name
visited (it either already was, or the body immediately adds it). -/
theorem dfsDetect_visits (nodes : List DependencyNode) (fuel : Nat) (n : String)
    (s : DfsState) (hfuel : 0 < fuel) (hpath : ¬ n ∈ s.path) :
    n ∈ (dfsDetect nodes fuel n s).visited := by
  obtain ⟨g, rfl⟩ : ∃ g, fuel = g + 1 := ⟨fuel - 1, by omega⟩
  rw [dfsDetect_succ, if_neg hpath]
  by_cases h2 : n ∈ s.visited
  · rw [if_pos h2]; exact h2
  · rw [if_neg h2]
    dsimp only
    cases hfind : findNode nodes n with
    | none => exact List.mem_append_right _ (List.mem_singleton.mpr rfl)
    | some nd =>
      obtain ⟨u, hu⟩ := dfsFold_visited_mono nodes g nd.dependencies
        ⟨s.visited ++ [n], s.path ++ [n], s.cycles⟩
      show n ∈ (nd.dependencies.foldl (fun t d => dfsDetect nodes g d t)
        ⟨s.visited ++ [n], s.path ++ [n], s.cycles⟩).visited
      rw [hu]
      exact List.mem_append_left _ (List.mem_append_right _ (List.mem_singleton.mpr rfl))

/-- Fold version of the anchor lemma, chaining it over a list of dependency
names. -/
theorem dfsFold_anchor (nodes : List DependencyNode) (A B : String)
    (nb : DependencyNode) (hfindB : findNode nodes B = some nb)
    (hBdepA : A ∈ nb.dependencies) (fuel : Nat) :
    ∀ (l : List String), (∀ d ∈ l, d ∈ nameUniverse nodes) →
      ∀ t : DfsState, A ∈ t.path → (∀ x ∈ t.path, x ∈ t.visited) →
      uMeasure nodes t.visited < fuel →
      (¬ B ∈ t.visited ∨ ∃ c ∈ t.cycles, A ∈ c ∧ B ∈ c) →
      (¬ B ∈ (l.foldl (fun t d => dfsDetect nodes fuel d t) t).visited ∨
       ∃ c ∈ (l.foldl (fun t d => dfsDetect nodes fuel d t) t).cycles, A ∈ c ∧ B ∈ c) := by
  intro l
  induction l with
  | nil => exact fun _ t _ _ _ h => h
  | cons d rest ihl =>
    intro hdl t hAt htsub htμ hdisj
    rw [List.foldl_cons]
    obtain ⟨v, hv⟩ := dfsDetect_visited_mono nodes fuel d t
    refine ihl (fun x hx => hdl x (List.mem_cons_of_mem d hx)) _ ?_ ?_ ?_ ?_
    · rw [dfsDetect_path]; exact hAt
    · intro x hx
      rw [dfsDetect_path] at hx
      rw [hv]
      exact List.mem_append_left _ (htsub x hx)
    · calc uMeasure nodes (dfsDetect nodes fuel d t).visited
          ≤ uMeasure nodes t.visited := by rw [hv]; exact uMeasure_append_le ..
        _ < fuel := htμ
    · rcases hdisj with hB | ⟨c, hc, hcA, hcB⟩
      · exact dfsDetect_with_anchor nodes A B nb hfindB hBdepA fuel d t hAt hB htsub
          (hdl d (List.mem_cons_self d rest)) htμ
      · refine Or.inr ⟨c, ?_, hcA, hcB⟩
        obtain ⟨u, hu⟩ := dfsDetect_cycles_mono nodes fuel d t
        rw [hu]
        exact List.mem_append_left _ hc

/-- Entry lemma: really visiting `A` when both endpoints of the two-cycle
`A → B → A` are unvisited records a cycle containing both: the visit pushes
`A` on the path, its dependency loop reaches `B`, and by the anchor lemma
`B`'s visit (which necessarily happens) closes the cycle through `A`. -/
theorem dfsDetect_entry_records (nodes : List DependencyNode) (A B : String)
    (na nb : DependencyNode) (hAB : A ≠ B)
    (hfindA : findNode nodes A = some na) (hAdepB : B ∈ na.dependencies)
    (hfindB : findNode nodes B = some nb) (hBdepA : A ∈ nb.dependencies) :
    ∀ (fuel : Nat) (s : DfsState),
      ¬ A ∈ s.visited → ¬ B ∈ s.visited → (∀ x ∈ s.path, x ∈ s.visited) →
      uMeasure nodes s.visited < fuel →
      ∃ c ∈ (dfsDetect nodes fuel A s).cycles, A ∈ c ∧ B ∈ c := by
  intro fuel s hAvis hBvis hsub hfuel
  have hAU : A ∈ nameUniverse nodes := mem_nameUniverse_key (findNode_mem_names hfindA)
  have hApath : ¬ A ∈ s.path := fun h => hAvis (hsub A h)
  obtain ⟨g, rfl⟩ : ∃ g, fuel = g + 1 := ⟨fuel - 1, by omega⟩
  rw [dfsDetect_succ, if_neg hApath, if_neg hAvis]
  dsimp only
  rw [hfindA]
  dsimp only
  obtain ⟨l1, l2, hsplit⟩ := List.append_of_mem hAdepB
  rw [hsplit, List.foldl_append, List.foldl_cons]
  have hμ1 : uMeasure nodes (s.visited ++ [A]) < uMeasure nodes s.visited :=
    uMeasure_push_lt nodes hAU hAvis
  have hs1sub : ∀ x ∈ s.path ++ [A], x ∈ s.visited ++ [A] := by
    intro x hx
    rcases List.mem_append.mp hx with h | h
    · exact List.mem_append_left _ (hsub x h)
    · exact List.mem_append_right _ h
  have hs1A : A ∈ s.path ++ [A] :=
    List.mem_append_right _ (List.mem_singleton.mpr rfl)
  have hdisj := dfsFold_anchor nodes A B nb hfindB hBdepA g l1
    (fun d hd => mem_nameUniverse_dep (findNode_some hfindA).1
      (by rw [hsplit]; exact List.mem_append_left _ hd))
    ⟨s.visited ++ [A], s.path ++ [A], s.cycles⟩ hs1A hs1sub
    (by show uMeasure nodes (s.visited ++ [A]) < g; omega)
    (Or.inl (by
      show ¬ B ∈ s.visited ++ [A]
      intro hmem
      rcases List.mem_append.mp hmem with h | h
      · exact hBvis h
      · exact hAB ((by simpa using h : B = A)).symm))
  obtain ⟨vt, hvt⟩ := dfsFold_visited_mono nodes g l1
    ⟨s.visited ++ [A], s.path ++ [A], s.cycles⟩
  have htpath : (l1.foldl (fun t d => dfsDetect nodes g d t)
      ⟨s.visited ++ [A], s.path ++ [A], s.cycles⟩).path = s.path ++ [A] :=
    dfsFold_path nodes g l1 _
  have htsub : ∀ x ∈ (l1.foldl (fun t d => dfsDetect nodes g d t)
      ⟨s.visited ++ [A], s.path ++ [A], s.cycles⟩).path,
      x ∈ (l1.foldl (fun t d => dfsDetect nodes g d t)
        ⟨s.visited ++ [A], s.path ++ [A], s.cycles⟩).visited := by
    intro x hx
    rw [htpath] at hx
    rw [hvt]
    exact List.mem_append_left _ (hs1sub x hx)
  have htμ : uMeasure nodes (l1.foldl (fun t d => dfsDetect nodes g d t)
      ⟨s.visited ++ [A], s.path ++ [A], s.cycles⟩).visited < g := by
    have := uMeasure_append_le nodes (s.visited ++ [A]) vt
    rw [← hvt] at this
    omega
  obtain ⟨cw, hcwmem, hcwAB⟩ :
      ∃ c ∈ (dfsDetect nodes g B (l1.foldl (fun t d => dfsDetect nodes g d t)
        ⟨s.visited ++ [A], s.path ++ [A], s.cycles⟩)).cycles, A ∈ c ∧ B ∈ c := by
    rcases hdisj with hBt | ⟨c, hc, hcA, hcB⟩
    · have hBtpath : ¬ B ∈ (l1.foldl (fun t d => dfsDetect nodes g d t)
          ⟨s.visited ++ [A], s.path ++ [A], s.cycles⟩).path :=
        fun h => hBt (htsub B h)
      have hdisj2 := dfsDetect_with_anchor nodes A B nb hfindB hBdepA g B
        (l1.foldl (fun t d => dfsDetect nodes g d t)
          ⟨s.visited ++ [A], s.path ++ [A], s.cycles⟩)
        (by rw [htpath]; exact hs1A) hBt htsub
        (mem_nameUniverse_key (findNode_mem_names hfindB)) htμ
      rcases hdisj2 with hBnot | hcyc
      · exact absurd (dfsDetect_visits nodes g B _ (by omega) hBtpath) hBnot
      · exact hcyc
    · refine ⟨c, ?_, hcA, hcB⟩
      obtain ⟨u, hu⟩ := dfsDetect_cycles_mono nodes g B _
      rw [hu]
      exact List.mem_append_left _ hc
  obtain ⟨u2, hu2⟩ := dfsFold_cycles_mono nodes g l2
    (dfsDetect nodes g B (l1.foldl (fun t d => dfsDetect nodes g d t)
      ⟨s.visited ++ [A], s.path ++ [A], s.cycles⟩))
  refine ⟨cw, ?_, hcwAB⟩
  show cw ∈ (l2.foldl (fun t d => dfsDetect nodes g d t) _).cycles
  rw [hu2]
  exact List.mem_append_left _ hcwmem

theorem uMeasure_lt_detectFuel (nodes : List DependencyNode) (v : List String) :
    uMeasure nodes v < detectFuel nodes := by
  have h := List.length_filter_le (fun a => ¬ a ∈ v) (nameUniverse nodes)
  unfold uMeasure detectFuel
  omega

/-- Scan lemma: any DFS call made while both endpoints of the two-cycle are
unvisited either keeps both unvisited or ends with a recorded cycle
containing both. -/
theorem dfsDetect_scan (nodes : List DependencyNode) (A B : String)
    (na nb : DependencyNode) (hAB : A ≠ B)
    (hfindA : findNode nodes A = some na) (hAdepB : B ∈ na.dependencies)
    (hfindB : findNode nodes B = some nb) (hBdepA : A ∈ nb.dependencies) :
    ∀ (fuel : Nat) (n : String) (s : DfsState),
      ¬ A ∈ s.visited → ¬ B ∈ s.visited → (∀ x ∈ s.path, x ∈ s.visited) →
      n ∈ nameUniverse nodes → uMeasure nodes s.visited < fuel →
      ((¬ A ∈ (dfsDetect nodes fuel n s).visited ∧
        ¬ B ∈ (dfsDetect nodes fuel n s).visited) ∨
       ∃ c ∈ (dfsDetect nodes fuel n s).cycles, A ∈ c ∧ B ∈ c) := by
  intro fuel
  induction fuel with
  | zero => intro n s _ _ _ _ h; exact absurd h (Nat.not_lt_zero _)
  | succ fuel ih =>
    intro n s hA hB hsub hnU hfuel
    by_cases hnA : n = A
    · rw [hnA]
      exact Or.inr (dfsDetect_entry_records nodes A B na nb hAB hfindA hAdepB hfindB
        hBdepA (fuel + 1) s hA hB hsub hfuel)
    · by_cases hnB : n = B
      · rw [hnB]
        obtain ⟨c, hc, hcB, hcA⟩ := dfsDetect_entry_records nodes B A nb na
          (fun h => hAB h.symm) hfindB hBdepA hfindA hAdepB (fuel + 1) s hB hA hsub hfuel
        exact Or.inr ⟨c, hc, hcA, hcB⟩
      · rw [dfsDetect_succ]
        by_cases h1 : n ∈ s.path
        · rw [if_pos h1]; exact Or.inl ⟨hA, hB⟩
        · rw [if_neg h1]
          by_cases h2 : n ∈ s.visited
          · rw [if_pos h2]; exact Or.inl ⟨hA, hB⟩
          · rw [if_neg h2]
            dsimp only
            have hAs1 : ¬ A ∈ s.visited ++ [n] := by
              intro hmem
              rcases List.mem_append.mp hmem with h | h
              · exact hA h
              · exact hnA ((by simpa using h : A = n)).symm
            have hBs1 : ¬ B ∈ s.visited ++ [n] := by
              intro hmem
              rcases List.mem_append.mp hmem with h | h
              · exact hB h
              · exact hnB ((by simpa using h : B = n)).symm
            cases hfind : findNode nodes n with
            | none => exact Or.inl ⟨hAs1, hBs1⟩
            | some nd =>
              obtain ⟨hndmem, -⟩ := findNode_some hfind
              have hchain : ∀ (l : List String), (∀ d ∈ l, d ∈ nd.dependencies) →
                  ∀ t : DfsState, (∀ x ∈ t.path, x ∈ t.visited) →
                  uMeasure nodes t.visited < fuel →
                  ((¬ A ∈ t.visited ∧ ¬ B ∈ t.visited) ∨
                    ∃ c ∈ t.cycles, A ∈ c ∧ B ∈ c) →
                  ((¬ A ∈ (l.foldl (fun t d => dfsDetect nodes fuel d t) t).visited ∧
                    ¬ B ∈ (l.foldl (fun t d => dfsDetect nodes fuel d t) t).visited) ∨
                   ∃ c ∈ (l.foldl (fun t d => dfsDetect nodes fuel d t) t).cycles,
                     A ∈ c ∧ B ∈ c) := by
                intro l
                induction l with
                | nil => exact fun _ t _ _ h => h
                | cons d rest ihl =>
                  intro hdl t htsub htμ hdisj
                  rw [List.foldl_cons]
                  obtain ⟨v, hv⟩ := dfsDetect_visited_mono nodes fuel d t
                  refine ihl (fun x hx => hdl x (List.mem_cons_of_mem d hx)) _ ?_ ?_ ?_
                  · intro x hx
                    rw [dfsDetect_path] at hx
                    rw [hv]
                    exact List.mem_append_left _ (htsub x hx)
                  · calc uMeasure nodes (dfsDetect nodes fuel d t).visited
                        ≤ uMeasure nodes t.visited := by rw [hv]; exact uMeasure_append_le ..
                      _ < fuel := htμ
                  · rcases hdisj with ⟨hAt, hBt⟩ | ⟨c, hc, hcA, hcB⟩
                    · exact ih d t hAt hBt htsub
                        (mem_nameUniverse_dep hndmem (hdl d (List.mem_cons_self d rest))) htμ
                    · refine Or.inr ⟨c, ?_, hcA, hcB⟩
                      obtain ⟨u, hu⟩ := dfsDetect_cycles_mono nodes fuel d t
                      rw [hu]
                      exact List.mem_append_left _ hc
              refine hchain nd.dependencies (fun _ hx => hx)
                ⟨s.visited ++ [n], s.path ++ [n], s.cycles⟩ ?_ ?_ (Or.inl ⟨hAs1, hBs1⟩)
              · intro x hx
                rcases List.mem_append.mp hx with h | h
                · exact List.mem_append_left _ (hsub x h)
                · exact List.mem_append_right _ h
              · show uMeasure nodes (s.visited ++ [n]) < fuel
                have := uMeasure_push_lt nodes hnU h2
                omega

/-- C7: whenever the graph contains a two-node cycle `A → B → A` (with
`A ≠ B`, both having nodes and listing each other as dependencies),
`detect_circular_dependencies` reports at least one cycle containing both
`A` and `B`, despite the visited-set pruning across start nodes. -/
theorem detect_cycles_reports_two_cycle (nodes : List DependencyNode)
    (A B : String) (na nb : DependencyNode) (hAB : A ≠ B)
    (hfindA : findNode nodes A = some na) (hAdepB : B ∈ na.dependencies)
    (hfindB : findNode nodes B = some nb) (hBdepA : A ∈ nb.dependencies) :
    ∃ c ∈ detectCircularDependencies nodes, A ∈ c ∧ B ∈ c := by
  have hAmem : A ∈ nodeNames nodes := findNode_mem_names hfindA
  obtain ⟨l1, l2, hsplit⟩ := List.append_of_mem hAmem
  unfold detectCircularDependencies
  rw [hsplit, List.foldl_append, List.foldl_cons]
  have hInv : ∀ (l : List String), (∀ x ∈ l, x ∈ nameUniverse nodes) →
      ∀ t : DfsState, t.path = [] →
      ((¬ A ∈ t.visited ∧ ¬ B ∈ t.visited) ∨ ∃ c ∈ t.cycles, A ∈ c ∧ B ∈ c) →
      ((l.foldl (fun s n => dfsDetect nodes (detectFuel nodes) n s) t).path = [] ∧
       (((¬ A ∈ (l.foldl (fun s n => dfsDetect nodes (detectFuel nodes) n s) t).visited ∧
          ¬ B ∈ (l.foldl (fun s n => dfsDetect nodes (detectFuel nodes) n s) t).visited) ∨
         ∃ c ∈ (l.foldl (fun s n => dfsDetect nodes (detectFuel nodes) n s) t).cycles,
           A ∈ c ∧ B ∈ c))) := by
    intro l
    induction l with
    | nil => exact fun _ t hp hd => ⟨hp, hd⟩
    | cons x rest ihl =>
      intro hlU t hp hd
      rw [List.foldl_cons]
      refine ihl (fun y hy => hlU y (List.mem_cons_of_mem x hy)) _
        (by rw [dfsDetect_path]; exact hp) ?_
      rcases hd with ⟨hAt, hBt⟩ | ⟨c, hc, hcA, hcB⟩
      · exact dfsDetect_scan nodes A B na nb hAB hfindA hAdepB hfindB hBdepA
          (detectFuel nodes) x t hAt hBt (fun y hy => by rw [hp] at hy; cases hy)
          (hlU x (List.mem_cons_self x rest)) (uMeasure_lt_detectFuel nodes t.visited)
      · refine Or.inr ⟨c, ?_, hcA, hcB⟩
        obtain ⟨u, hu⟩ := dfsDetect_cycles_mono nodes (detectFuel nodes) x t
        rw [hu]
        exact List.mem_append_left _ hc
  have hl1U : ∀ x ∈ l1, x ∈ nameUniverse nodes := by
    intro x hx
    exact mem_nameUniverse_key (by rw [hsplit]; exact List.mem_append_left _ hx)
  have hmid := hInv l1 hl1U ⟨[], [], []⟩ rfl
    (Or.inl ⟨List.not_mem_nil A, List.not_mem_nil B⟩)
  obtain ⟨hmidpath, hmiddisj⟩ := hmid
  obtain ⟨cw, hcwmem, hcwAB⟩ :
      ∃ c ∈ (dfsDetect nodes (detectFuel nodes) A
        (l1.foldl (fun s n => dfsDetect nodes (detectFuel nodes) n s)
          ⟨[], [], []⟩)).cycles, A ∈ c ∧ B ∈ c := by
    rcases hmiddisj with ⟨hAm, hBm⟩ | ⟨c, hc, hcA, hcB⟩
    · exact dfsDetect_entry_records nodes A B na nb hAB hfindA hAdepB hfindB hBdepA
        (detectFuel nodes) _ hAm hBm
        (fun y hy => by rw [hmidpath] at hy; cases hy)
        (uMeasure_lt_detectFuel nodes _)
    · refine ⟨c, ?_, hcA, hcB⟩
      obtain ⟨u, hu⟩ := dfsDetect_cycles_mono nodes (detectFuel nodes) A _
      rw [hu]
      exact List.mem_append_left _ hc
  obtain ⟨u, hu⟩ := dfsFold_cycles_mono nodes (detectFuel nodes) l2
    (dfsDetect nodes (detectFuel nodes) A
      (l1.foldl (fun s n => dfsDetect nodes (detectFuel nodes) n s) ⟨[], [], []⟩))
  refine ⟨cw, ?_, hcwAB⟩
  show cw ∈ (l2.foldl (fun s n => dfsDetect nodes (detectFuel nodes) n s) _).cycles
  rw [hu]
  exact List.mem_append_left _ hcwmem

/-- Witness for C7 on the two-node cyclic graph `A ↔ B`. -/
theorem detect_cycles_reports_two_cycle_witness :
    ∃ c ∈ detectCircularDependencies
      [⟨"A", 1, ["B"], ["B"]⟩, ⟨"B", 2, ["A"], ["A"]⟩], "A" ∈ c ∧ "B" ∈ c :=
  detect_cycles_reports_two_cycle
    [⟨"A", 1, ["B"], ["B"]⟩, ⟨"B", 2, ["A"], ["A"]⟩] "A" "B"
    ⟨"A", 1, ["B"], ["B"]⟩ ⟨"B", 2, ["A"], ["A"]⟩
    (by decide) (by decide) (by decide) (by decide) (by decide)

end UavSystem
